import Mathlib

/-!
Verification development for the pgr-tk pangenome toolkit sources.

The definitions below are a shallow embedding of the Rust code of
`pgr-db/src/seq_db.rs` and of the binaries `pgr-alnmap.rs`,
`pgr-pbundle-shmmr2dist.rs`.  Machine integers (`u32`, `u64`, `u8`) are
modelled as `Nat`, with an explicit `% 2 ^ w` where overflow can matter
(bit-packed fragment ids, on-disk little-endian fields).  `FxHashMap`s whose
insertion order the code relies on are modelled as association lists with the
same insert / entry-push semantics; `FxHashSet`s as duplicate-free lists.
Fallible reads are modelled with `Option`.
-/

/-- A minimizer, modelling the `MM128` projections that `seq_db.rs` consumes:
only `hash()` (the 56-bit hash stored in the high bits of `x`, i.e. `x >> 8`)
and `pos()` are used by the fragment store. -/
structure MMin where
  hash : Nat
  pos : Nat
deriving DecidableEq, Repr

/-- One occurrence of a minimizer pair, modelling
`FragmentSignature = (u32, u32, u32, u32, u8)`:
`(frg_id, seq_id, bgn, end, orientation)`. -/
structure FragSig where
  frag_id : Nat
  seq_id : Nat
  bgn : Nat
  fend : Nat
  ori : Nat
deriving DecidableEq, Repr

/-- `ShmmrPair = (u64, u64)`. -/
abbrev ShmmrPairM := Nat × Nat

/-- The minimizer-pair index `ShmmrToFrags = FxHashMap<ShmmrPair, Vec<FragmentSignature>>`,
modelled as an insertion-ordered association list with unique keys. -/
abbrev ShmmrMapM := List (ShmmrPairM × List FragSig)

/-- `FragmentGroup`.  The source keeps raw byte strings in `seqs` while open and,
once `compress()` runs, replaces them by one zstd blob `compressed_data`
together with the per-entry lengths `seq_len`; `get_frag` then recovers the
`sub_idx`-th string from the blob by the recorded offsets.  Since
`decode_all (encode_all data) = data`, the logical content of a sealed group is
exactly the list of strings it held when sealed, so the model keeps `seqs` as
the content in both states and `compressed` as the seal flag. -/
structure FragGroup where
  seqs : List (List Nat)
  compressed : Bool
deriving DecidableEq, Repr

/-- `FRAG_SHIFT = 4`, `FRAG_GROUP_MAX = 1 << 4 = 16`. -/
def FRAG_GROUP_MAX : Nat := 16

/-- `FragmentGroup::new()`. -/
def FragGroup.new : FragGroup := ⟨[], false⟩

/-- `FragmentGroup::add_frag`: a group holding `FRAG_GROUP_MAX` entries seals
itself (runs `compress()`) and rejects; a sealed group rejects; otherwise the
bytes are pushed and the new sub-index (the previous length) is returned. -/
def FragGroup.addFrag (g : FragGroup) (v : List Nat) : FragGroup × Option Nat :=
  if FRAG_GROUP_MAX ≤ g.seqs.length then ({ g with compressed := true }, none)
  else if g.compressed then (g, none)
  else ({ g with seqs := g.seqs ++ [v] }, some g.seqs.length)

/-- `FragmentGroup::get_frag`: return the `sub_idx`-th stored byte string
(out-of-range access panics in the source; the model returns `[]`). -/
def FragGroup.getFrag (g : FragGroup) (subIdx : Nat) : List Nat :=
  g.seqs.getD subIdx []

/-- `CompactSeq` (the `source`/`name` strings are irrelevant to the claims and
omitted). -/
structure CompactSeqM where
  id : Nat
  seq_frags : List Nat
  len : Nat
deriving DecidableEq, Repr

/-- The mutable part of `CompactSeqDB` that `seq_to_compressed` touches,
together with the shimmer k parameter. -/
structure CompactSeqDBM where
  shmmr_k : Nat
  seqs : List CompactSeqM
  frag_map : ShmmrMapM
  frag_groups : List FragGroup
deriving DecidableEq, Repr

/-- Fragment-id packing `(gid << FRAG_SHIFT | sub) << 2 | kind` on `u32`. -/
def mkFragId (gid sub kind : Nat) : Nat :=
  ((gid * 16 + sub) * 4 + kind) % 2 ^ 32

/-- Kind bits of a fragment id (`frag_id & 0b11`). -/
def decodeKind (fid : Nat) : Nat := fid % 4

/-- Sub-index of a fragment id (`(frag_id >> 2) & 0b1111`). -/
def decodeSub (fid : Nat) : Nat := fid / 4 % 16

/-- Group id of a fragment id (`frag_id >> 2 >> FRAG_SHIFT`, equal to
`frag_id >> FRAG_SHIFT >> 2` used at the ingest site). -/
def decodeGid (fid : Nat) : Nat := fid / 4 / 16

/-- Association-list lookup, modelling `FxHashMap::get`. -/
def mapLookup (m : ShmmrMapM) (k : ShmmrPairM) : Option (List FragSig) :=
  match m with
  | [] => none
  | (k0, v0) :: rest => if k0 = k then some v0 else mapLookup rest k

/-- Append a signature to the value list of an existing key (modelling
`e.push(..)` through `get_mut`); absent keys are untouched. -/
def mapPushSig (m : ShmmrMapM) (k : ShmmrPairM) (s : FragSig) : ShmmrMapM :=
  match m with
  | [] => []
  | (k0, v0) :: rest =>
      if k0 = k then (k0, v0 ++ [s]) :: rest else (k0, v0) :: mapPushSig rest k s

/-- `FxHashMap::insert`: replace the value of an existing key, else add the
binding (at the end, preserving insertion order of the model). -/
def mapInsert (m : ShmmrMapM) (k : ShmmrPairM) (v : List FragSig) : ShmmrMapM :=
  match m with
  | [] => [(k, v)]
  | (k0, v0) :: rest =>
      if k0 = k then (k0, v) :: rest else (k0, v0) :: mapInsert rest k v

/-- `entry(k).or_default().push(s)`: append under an existing key, else insert
a new singleton binding. -/
def mapEntryPush (m : ShmmrMapM) (k : ShmmrPairM) (s : FragSig) : ShmmrMapM :=
  match m with
  | [] => [(k, [s])]
  | (k0, v0) :: rest =>
      if k0 = k then (k0, v0 ++ [s]) :: rest else (k0, v0) :: mapEntryPush rest k s

/-- The canonicalization used at ingest time (`seq_to_compressed`,
`seq_to_index`): `if s0 <= s1 { ((s0, s1), 0) } else { ((s1, s0), 1) }`. -/
def canonPair (s0 s1 : Nat) : ShmmrPairM × Nat :=
  if s0 ≤ s1 then ((s0, s1), 0) else ((s1, s0), 1)

/-- The slice `seq[b..e]` of a byte string (in-range in the source; the model
truncates). -/
def seqSlice (seq : List Nat) (b e : Nat) : List Nat :=
  (seq.take e).drop b

/-- `pair_shmmrs`: the list of adjacent minimizer pairs. -/
def pairShmmrs (shmmrs : List MMin) : List (MMin × MMin) :=
  if shmmrs.length < 2 then [] else shmmrs.dropLast.zip shmmrs.tail

/-- The loop state of `seq_to_compressed`: the database fields it mutates plus
its locals `frag_group_id` (the fresh-group counter), `seq_frags` and
`seq_len`. -/
structure IngestState where
  frag_groups : List FragGroup
  frag_map : ShmmrMapM
  frag_group_id : Nat
  seq_frags : List Nat
  seq_len : Nat
deriving DecidableEq, Repr

/-- Scan of the signature list in `seq_to_compressed`'s pair loop: the first
signature whose orientation matches and whose group id is in range (signatures
with the other orientation are skipped by `continue`; an out-of-range group id
makes `frag_groups.get_mut` return `None`, which also continues the loop). -/
def findCandidate (nGroups ori : Nat) : List FragSig → Option FragSig
  | [] => none
  | t :: rest =>
      if t.ori = ori ∧ decodeGid t.frag_id < nGroups then some t
      else findCandidate nGroups ori rest

/-- The body of `pair_shmmrs(&shmmrs).iter().for_each(..)` in
`seq_to_compressed` (seq_db.rs lines 315-375), acting on one adjacent
minimizer pair.  Note that when the first candidate group rejects the insert
the source immediately opens a fresh group and `break`s out of the signature
loop; and that the no-candidate path uses `FxHashMap::insert`, replacing any
signature list already stored under the key. -/
def stepPair (k sid : Nat) (seq : List Nat) (st : IngestState) (p : MMin × MMin) :
    IngestState :=
  let sp := (canonPair p.1.hash p.2.hash).1
  let ori := (canonPair p.1.hash p.2.hash).2
  let bgn := p.1.pos + 1
  let pend := p.2.pos + 1
  let fragLen := pend - bgn
  let frag := seqSlice seq (bgn - k) pend
  let fresh : IngestState :=
    { frag_groups := st.frag_groups ++ [⟨[frag], false⟩]
      frag_map := mapInsert st.frag_map sp
        [⟨mkFragId st.frag_group_id 0 1, sid, bgn, pend, ori⟩]
      frag_group_id := st.frag_group_id + 1
      seq_frags := st.seq_frags ++ [mkFragId st.frag_group_id 0 1]
      seq_len := st.seq_len + fragLen }
  match mapLookup st.frag_map sp with
  | none => fresh
  | some e =>
    match findCandidate st.frag_groups.length ori e with
    | none => fresh
    | some t =>
      let gid := decodeGid t.frag_id
      let g := st.frag_groups.getD gid FragGroup.new
      let r := g.addFrag frag
      match r.2 with
      | some sub =>
        { frag_groups := st.frag_groups.set gid r.1
          frag_map := mapPushSig st.frag_map sp ⟨mkFragId gid sub 1, sid, bgn, pend, ori⟩
          frag_group_id := st.frag_group_id
          seq_frags := st.seq_frags ++ [mkFragId gid sub 1]
          seq_len := st.seq_len + fragLen }
      | none =>
        { frag_groups := st.frag_groups.set gid r.1 ++ [⟨[frag], false⟩]
          frag_map := mapPushSig st.frag_map sp
            ⟨mkFragId st.frag_group_id 0 1, sid, bgn, pend, ori⟩
          frag_group_id := st.frag_group_id + 1
          seq_frags := st.seq_frags ++ [mkFragId st.frag_group_id 0 1]
          seq_len := st.seq_len + fragLen }

/-- `CompactSeqDB::seq_to_compressed` (seq_db.rs lines 270-395). -/
def seqToCompressed (db : CompactSeqDBM) (sid : Nat) (seq : List Nat)
    (shmmrs : List MMin) : CompactSeqM × CompactSeqDBM :=
  let k := db.shmmr_k
  match shmmrs with
  | [] =>
      let fid := mkFragId db.frag_groups.length 0 0
      (⟨sid, [fid], seq.length⟩,
       { db with frag_groups := db.frag_groups ++ [⟨[seq], false⟩] })
  | m0 :: _ =>
      let pend := m0.pos + 1
      let st0 : IngestState :=
        { frag_groups := db.frag_groups ++ [⟨[seq.take pend], false⟩]
          frag_map := db.frag_map
          frag_group_id := db.frag_groups.length + 1
          seq_frags := [mkFragId db.frag_groups.length 0 0]
          seq_len := pend }
      let st1 := (pairShmmrs shmmrs).foldl (stepPair k sid seq) st0
      let sbgn := (shmmrs.getLastD m0).pos + 1
      let sfrag := seq.drop sbgn
      let st2 : IngestState :=
        { st1 with
          frag_groups := st1.frag_groups ++ [⟨[sfrag], false⟩]
          seq_frags := st1.seq_frags ++ [mkFragId st1.frag_group_id 0 2]
          seq_len := st1.seq_len + sfrag.length }
      (⟨sid, st2.seq_frags, seq.length⟩,
       { db with frag_map := st2.frag_map, frag_groups := st2.frag_groups })

/-- `load_seqs_from_seq_vec` for a single record: run `seq_to_compressed` and
push the resulting `CompactSeq` onto `self.seqs`. -/
def loadSeq (db : CompactSeqDBM) (sid : Nat) (seq : List Nat)
    (shmmrs : List MMin) : CompactSeqDBM :=
  let r := seqToCompressed db sid seq shmmrs
  { r.2 with seqs := r.2.seqs ++ [r.1] }

/-- Fetch the bytes a fragment id refers to (`frag_groups.get(gid).unwrap().get_frag(sub)`). -/
def fragLookup (groups : List FragGroup) (fid : Nat) : List Nat :=
  (groups.getD (decodeGid fid) FragGroup.new).getFrag (decodeSub fid)

/-- `CompactSeqDB::reconstruct_seq_from_frags` (seq_db.rs lines 717-750):
append the full bytes of kind-`0b00` and kind-`0b10` fragments, skip the
leading `k` bytes of kind-`0b01` fragments, ignore other kind bits. -/
def reconstructSeqFromFrags (groups : List FragGroup) (k : Nat) :
    List Nat → List Nat
  | [] => []
  | fid :: rest =>
      let b := fragLookup groups fid
      (if decodeKind fid = 0 then b
       else if decodeKind fid = 2 then b
       else if decodeKind fid = 1 then b.drop k
       else []) ++ reconstructSeqFromFrags groups k rest

/-- `GetSeq::get_seq_by_id` for the compressed store. -/
def getSeqById (db : CompactSeqDBM) (sid : Nat) : List Nat :=
  reconstructSeqFromFrags db.frag_groups db.shmmr_k
    ((db.seqs.getD sid ⟨0, [], 0⟩).seq_frags)

/-- `GetSeq::get_sub_seq_by_id`: reconstruct the whole sequence, then slice. -/
def getSubSeqById (db : CompactSeqDBM) (sid bgn pend : Nat) : List Nat :=
  seqSlice (getSeqById db sid) bgn pend

/-- `CompactSeqDB::seq_to_index` (seq_db.rs lines 398-451): the per-pair
canonical keys with positions and orientations, and the `CompactSeq` whose
`seq_frags` are the plain pair indices. -/
def seqToIndex (sid seqlen : Nat) (shmmrs : List MMin) :
    CompactSeqM × List (ShmmrPairM × Nat × Nat × Nat) :=
  match shmmrs with
  | [] => (⟨sid, [], seqlen⟩, [])
  | _ :: _ =>
      let internalFrags := (pairShmmrs shmmrs).map fun p =>
        ((canonPair p.1.hash p.2.hash).1, p.1.pos + 1, p.2.pos + 1,
         (canonPair p.1.hash p.2.hash).2)
      (⟨sid, List.range (pairShmmrs shmmrs).length, seqlen⟩, internalFrags)

/-- `load_index_from_seq_vec` for one record: zip the internal fragments with
the `seq_frags` indices and `entry(..).or_default().push(..)` each signature
into the map. -/
def loadIndexOne (m : ShmmrMapM) (sid seqlen : Nat) (shmmrs : List MMin) :
    ShmmrMapM :=
  let r := seqToIndex sid seqlen shmmrs
  (r.2.zip r.1.seq_frags).foldl
    (fun acc x => mapEntryPush acc x.1.1 ⟨x.2, sid, x.1.2.1, x.1.2.2.1, x.1.2.2.2⟩) m

/-- The pair canonicalization used on the query side by `query_fragment`
(seq_db.rs lines 1184-1196): note the strict `s0 < s1` test. -/
def queryFragmentCanon (s0 s1 p0 p1 : Nat) : Nat × Nat × Nat × Nat × Nat :=
  if s0 < s1 then (s0, s1, p0, p1, 0) else (s1, s0, p0, p1, 1)

/-- The pair canonicalization used by `generate_smp_adj_list_for_seq`
(seq_db.rs lines 933-945), on the raw `x >> 8` hashes: also strict. -/
def smpAdjCanon (s0 s1 p0 p1 : Nat) : Nat × Nat × Nat × Nat × Nat :=
  if s0 < s1 then (s0, s1, p0, p1, 0) else (s1, s0, p0, p1, 1)

/-- A minimizer-graph node `ShmmrGraphNode(u64, u64, u8)`. -/
abbrev GNode := Nat × Nat × Nat

/-- Distinct out-neighbors of `v` in an edge list (modelling
`DiGraphMap::neighbors_directed(v, Outgoing).count()`; `DiGraphMap` never
stores a duplicate edge, matching the `dedup`). -/
def outDeg (edges : List (GNode × GNode)) (v : GNode) : Nat :=
  (((edges.filter fun e => e.1 = v).map fun e => e.2).dedup).length

/-- Distinct in-neighbors of `w` (`neighbors_directed(w, Incoming).count()`). -/
def inDeg (edges : List (GNode × GNode)) (w : GNode) : Nat :=
  (((edges.filter fun e => e.2 = w).map fun e => e.1).dedup).length

/-- `FxHashSet::insert` on a duplicate-free list model. -/
def setInsert (s : List GNode) (v : GNode) : List GNode :=
  if v ∈ s then s else s ++ [v]

/-- The terminal-vertex marking loop of `get_principal_bundles_from_adj_list`
(seq_db.rs lines 1094-1101) over the restricted graph `g0`, transcribed
verbatim: for each edge `(v, w)`, insert `v` when `outDeg v > 1`, and insert
`v` (sic - the source inserts `v`, not `w`) when `inDeg w > 1`. -/
def terminalVertices (edges : List (GNode × GNode)) : List GNode :=
  edges.foldl
    (fun acc e =>
      let acc1 := if 1 < outDeg edges e.1 then setInsert acc e.1 else acc
      if 1 < inDeg edges e.2 then setInsert acc1 e.1 else acc1)
    []

/-- `AlignmentResult = Vec<(u32, u32, char, String, String)>`. -/
abbrev AlignmentResultM := List (Nat × Nat × Char × String × String)

/-- `AlnDiff` of pgr-alnmap.rs. -/
inductive AlnDiffM where
  | aligned (r : AlignmentResultM)
  | failAln
  | failEndMatch
  | failLengthDiff
  | failShortSeq
deriving DecidableEq, Repr

/-- The inter-anchor classification of pgr-alnmap.rs lines 449-488, dispatching
on the target block bytes `s0` and query block bytes `s1`.  The two aligners
are modelled from the spec as oracles (`pgr_db::aln::get_sw_variant_segments`
and `get_wfa_variant_segments` are not among the sources); `wfaAln` receives
the band width, which the call site fixes to `384`. -/
def alnDiffDispatch (maxSwAlnSize : Nat)
    (swAln : List Nat → List Nat → Option AlignmentResultM)
    (wfaAln : List Nat → List Nat → Nat → Option AlignmentResultM)
    (s0 s1 : List Nat) : AlnDiffM :=
  if s0.length ≤ 16 ∨ s1.length ≤ 16 then .failShortSeq
  else if s0.take 16 ≠ s1.take 16 ∨
      s0.drop (s0.length - 16) ≠ s1.drop (s1.length - 16) then .failEndMatch
  else if 128 ≤ ((s0.length : ℤ) - (s1.length : ℤ)).natAbs then
    if s0.length < maxSwAlnSize ∧ s1.length < maxSwAlnSize then
      match swAln s0 s1 with
      | some r => .aligned r
      | none => .failAln
    else .failLengthDiff
  else
    match wfaAln s0 s1 384 with
    | some r => .aligned r
    | none => .failAln

/-- `AlignSegment = ((q_bgn, q_end, q_orientation), (t_bgn, t_end, t_orientation))`. -/
abbrev AlignSegmentM := (Nat × Nat × Nat) × (Nat × Nat × Nat)

/-- The running state of the `filter_aln` loops: `(last_ts, last_te, last_qs,
last_qe)` and the collected windows. -/
structure FilterState where
  lts : Nat
  lte : Nat
  lqs : Nat
  lqe : Nat
  rtn : List ((Nat × Nat) × (Nat × Nat))
deriving DecidableEq, Repr

/-- One iteration of `filter_aln` (pgr-alnmap.rs lines 154-172): skip inverted
target spans and mismatched orientations; when the hit starts past `last_te`,
advance both windows (target to `[last_te, te]`, query to `[last_qe, qe]`) and
push, unless the new target window is degenerate. -/
def filterAlnStep (st : FilterState) (s : AlignSegmentM) : FilterState :=
  let qe := s.1.2.1
  let qo := s.1.2.2
  let ts := s.2.1
  let te := s.2.2.1
  let to_ := s.2.2.2
  if te < ts then st
  else if qo ≠ to_ then st
  else if st.lte < ts then
    let st1 : FilterState := ⟨st.lte, te, st.lqe, qe, st.rtn⟩
    if st1.lts = st1.lte then st1
    else { st1 with rtn := st1.rtn ++ [((st1.lts, st1.lte), (st1.lqs, st1.lqe))] }
  else st

/-- `filter_aln` (pgr-alnmap.rs lines 142-174).  The source indexes
`aln_segs[0]` unconditionally (panicking on an empty vector); the model
returns `[]` there. -/
def filterAln (alnSegs : List AlignSegmentM) : List ((Nat × Nat) × (Nat × Nat)) :=
  match alnSegs with
  | [] => []
  | s0 :: _ =>
      (alnSegs.foldl filterAlnStep
        ⟨s0.2.1, s0.2.2.1, s0.1.1, s0.1.2.1,
         [((s0.2.1, s0.2.2.1), (s0.1.1, s0.1.2.1))]⟩).rtn

/-- One iteration of `filter_aln_rev` (pgr-alnmap.rs lines 189-207): traverses
the reversed list, keeps only hits with `qo == to` FALSE (i.e. skips matching
orientations), accepts `ts >= last_te`, and advances the query window backwards
(`last_qe = last_qs; last_qs = qs`). -/
def filterAlnRevStep (st : FilterState) (s : AlignSegmentM) : FilterState :=
  let qs := s.1.1
  let qo := s.1.2.2
  let ts := s.2.1
  let te := s.2.2.1
  let to_ := s.2.2.2
  if te < ts then st
  else if qo = to_ then st
  else if st.lte ≤ ts then
    let st1 : FilterState := ⟨st.lte, te, qs, st.lqs, st.rtn⟩
    if st1.lts = st1.lte then st1
    else { st1 with rtn := st1.rtn ++ [((st1.lts, st1.lte), (st1.lqs, st1.lqe))] }
  else st

/-- `filter_aln_rev` (pgr-alnmap.rs lines 176-209). -/
def filterAlnRev (alnSegs : List AlignSegmentM) : List ((Nat × Nat) × (Nat × Nat)) :=
  match alnSegs.reverse with
  | [] => []
  | s0 :: _ =>
      (alnSegs.reverse.foldl filterAlnRevStep
        ⟨s0.2.1, s0.2.2.1, s0.1.1, s0.1.2.1,
         [((s0.2.1, s0.2.2.1), (s0.1.1, s0.1.2.1))]⟩).rtn

/-- A bundle-run record of pgr-pbundle-shmmr2dist.rs:
`(shmmr_string, bgn, end, orientation)`. -/
structure SmpRec where
  frag_id : String
  bgn : Nat
  fend : Nat
  ori : Nat
deriving DecidableEq, Repr

/-- The `(frag_id, orientation)` key of a record. -/
def SmpRec.key (s : SmpRec) : String × Nat := (s.frag_id, s.ori)

/-- The interval list collected under one key (`smp_to_frags` entry). -/
def fragsFor (smps : List SmpRec) (k : String × Nat) : List (Nat × Nat) :=
  (smps.filter fun s => s.key = k).map fun s => (s.bgn, s.fend)

/-- The summed interval length of one key's entry. -/
def keyLen (smps : List SmpRec) (k : String × Nat) : Nat :=
  ((fragsFor smps k).map fun v => v.2 - v.1).sum

/-- Total length of one side (`length0` / `length1`). -/
def totalLen (smps : List SmpRec) : Nat :=
  (smps.map fun s => s.fend - s.bgn).sum

/-- `all_smps`: the keys occurring on either side (an `FxHashSet`; a
duplicate-free list in the model — the score below is a sum, so the set's
iteration order is immaterial). -/
def allKeys (smps0 smps1 : List SmpRec) : List (String × Nat) :=
  ((smps0 ++ smps1).map SmpRec.key).dedup

/-- The contribution of one key to `match_score` (align_smps, lines 51-83):
`+ (l0 + l1)` when both sides hold the key with equal occurrence counts,
`+ min(l0, l1) - |l0 - l1|` when the counts differ, `- l` for a key on one
side only. -/
def matchScoreTerm (smps0 smps1 : List SmpRec) (k : String × Nat) : ℤ :=
  let l0 := keyLen smps0 k
  let l1 := keyLen smps1 k
  if (fragsFor smps0 k) ≠ [] ∧ (fragsFor smps1 k) ≠ [] then
    if (fragsFor smps0 k).length = (fragsFor smps1 k).length then (l0 : ℤ) + l1
    else (min l0 l1 : ℤ) - (max l0 l1 - min l0 l1 : Nat)
  else if (fragsFor smps0 k) ≠ [] then -(l0 : ℤ)
  else if (fragsFor smps1 k) ≠ [] then -(l1 : ℤ)
  else 0

/-- `match_score`. -/
def matchScore (smps0 smps1 : List SmpRec) : ℤ :=
  ((allKeys smps0 smps1).map (matchScoreTerm smps0 smps1)).sum

/-- Whether any offset was collected: offsets are pushed exactly for keys held
by both sides with equal counts and a single occurrence (`frags0.len() == 1`). -/
def hasUniqueSharedKey (smps0 smps1 : List SmpRec) : Bool :=
  (allKeys smps0 smps1).any fun k =>
    (fragsFor smps0 k).length = 1 && (fragsFor smps1 k).length = 1

/-- The `dist` component returned by `align_smps` (lines 110-125): `1.0` when
no offset cluster exists, else `1 - 0.5 * (match_score / (length0 + length1) + 1)`.
The `f32` arithmetic of the source is modelled exactly over `ℚ`. -/
def alignSmpsDist (smps0 smps1 : List SmpRec) : ℚ :=
  if hasUniqueSharedKey smps0 smps1 = false then 1
  else 1 - (1 / 2) * ((matchScore smps0 smps1 : ℚ) /
    ((totalLen smps0 + totalLen smps1 : Nat) : ℚ) + 1)

/-- `ShmmrSpec {w, k, r, min_span, sketch}`. -/
structure ShmmrSpecM where
  w : Nat
  k : Nat
  r : Nat
  min_span : Nat
  sketch : Bool
deriving DecidableEq, Repr

/-- Little-endian encoding of `n` on `w` bytes (`write_u32::<LittleEndian>`,
`write_u64::<LittleEndian>`; the cast truncates). -/
def leBytes : Nat → Nat → List Nat
  | 0, _ => []
  | wd + 1, n => n % 256 :: leBytes wd (n / 256)

/-- Little-endian decoding (`u32::from_le_bytes`, `u64::from_le_bytes`,
`LittleEndian::read_u32`); the bytes of a file are < 256. -/
def fromLE : List Nat → Nat
  | [] => 0
  | b :: rest => b + 256 * fromLE rest

/-- The 17-byte record of one `FragmentSignature` in a `.mdb` file. -/
def encodeSig (s : FragSig) : List Nat :=
  leBytes 4 s.frag_id ++ leBytes 4 s.seq_id ++ leBytes 4 s.bgn ++
    leBytes 4 s.fend ++ [s.ori % 256]

/-- One key block of a `.mdb` file: `h0, h1, n_sigs` as `u64` LE then the
signature records. -/
def encodeEntry (kv : ShmmrPairM × List FragSig) : List Nat :=
  leBytes 8 kv.1.1 ++ leBytes 8 kv.1.2 ++ leBytes 8 kv.2.length ++
    (kv.2.map encodeSig).flatten

/-- `write_shmr_map_file` (seq_db.rs lines 1228-1263): the byte buffer written
to the `.mdb` file ("mdb" magic, five `u32` spec fields with `sketch as u32`,
`u64` key count, then the key blocks in map iteration order). -/
def writeShmrMapBuf (spec : ShmmrSpecM) (m : ShmmrMapM) : List Nat :=
  [109, 100, 98] ++ leBytes 4 spec.w ++ leBytes 4 spec.k ++ leBytes 4 spec.r ++
    leBytes 4 spec.min_span ++ leBytes 4 (if spec.sketch then 1 else 0) ++
    leBytes 8 m.length ++ (m.map encodeEntry).flatten

/-- Read `n` bytes at offset `c` (a slice `buf[c..c+n]`; out of range panics in
the source, `none` here). -/
def readBytesAt (buf : List Nat) (c n : Nat) : Option (List Nat) :=
  if c + n ≤ buf.length then some ((buf.drop c).take n) else none

/-- `LittleEndian::read_u32(&buf[c..c+4])` / `u32::from_le_bytes`. -/
def readU32At (buf : List Nat) (c : Nat) : Option Nat :=
  (readBytesAt buf c 4).map fromLE

/-- `u64::from_le_bytes(buf[c..c+8])`. -/
def readU64At (buf : List Nat) (c : Nat) : Option Nat :=
  (readBytesAt buf c 8).map fromLE

/-- `buf[c..c+1][0]`. -/
def readU8At (buf : List Nat) (c : Nat) : Option Nat :=
  (readBytesAt buf c 1).map fromLE

/-- The inner signature loop of `read_mdb_file`: decode `n` 17-byte records
starting at `c`, returning them with the final cursor. -/
def readSigsAt (buf : List Nat) : Nat → Nat → Option (List FragSig × Nat)
  | c, 0 => some ([], c)
  | c, n + 1 => do
      let a ← readU32At buf c
      let b ← readU32At buf (c + 4)
      let d ← readU32At buf (c + 8)
      let e ← readU32At buf (c + 12)
      let o ← readU8At buf (c + 16)
      let r ← readSigsAt buf (c + 17) n
      some (⟨a, b, d, e, o⟩ :: r.1, r.2)

/-- The key loop of `read_mdb_file`: decode `n` key blocks starting at `c`. -/
def readEntriesAt (buf : List Nat) :
    Nat → Nat → Option (List (ShmmrPairM × List FragSig) × Nat)
  | c, 0 => some ([], c)
  | c, n + 1 => do
      let k1 ← readU64At buf c
      let k2 ← readU64At buf (c + 8)
      let vl ← readU64At buf (c + 16)
      let s ← readSigsAt buf (c + 24) vl
      let r ← readEntriesAt buf s.2 n
      some (((k1, k2), s.1) :: r.1, r.2)

/-- `read_mdb_file` (seq_db.rs lines 1265-1345) on a byte buffer: check the
magic, read the five spec fields (`sketch = (flag & 0b01) == 0b01`), the key
count, then insert each decoded key block into the map in order. -/
def readMdbFile (buf : List Nat) : Option (ShmmrSpecM × ShmmrMapM) := do
  guard (buf.take 3 = [109, 100, 98])
  let w ← readU32At buf 3
  let k ← readU32At buf 7
  let r ← readU32At buf 11
  let ms ← readU32At buf 15
  let flag ← readU32At buf 19
  let nk ← readU64At buf 23
  let es ← readEntriesAt buf 31 nk
  some (⟨w, k, r, ms, flag % 2 = 1⟩,
    es.1.foldl (fun m kv => mapInsert m kv.1 kv.2) [])

/-- The scan loop of `read_mdb_file_parallel` (seq_db.rs lines 1383-1399):
read `h0, h1, n_sigs` for each key, record `(h0, h1, start, n_sigs)` and skip
`n_sigs * 17` bytes. -/
def scanRecsAt (buf : List Nat) :
    Nat → Nat → Option (List (Nat × Nat × Nat × Nat) × Nat)
  | c, 0 => some ([], c)
  | c, n + 1 => do
      let k1 ← readU64At buf c
      let k2 ← readU64At buf (c + 8)
      let vl ← readU64At buf (c + 16)
      let r ← scanRecsAt buf (c + 24 + vl * 17) n
      some ((k1, k2, c + 24, vl) :: r.1, r.2)

/-- `read_mdb_file_parallel` (seq_db.rs lines 1347-1435): same header, then a
sequential scan collecting per-key byte ranges, then per-key decoding of each
disjoint range (in parallel in the source; the combining `collect` into an
`FxHashMap` is insertion over the record order). -/
def readMdbFileParallel (buf : List Nat) : Option (ShmmrSpecM × ShmmrMapM) := do
  guard (buf.take 3 = [109, 100, 98])
  let w ← readU32At buf 3
  let k ← readU32At buf 7
  let r ← readU32At buf 11
  let ms ← readU32At buf 15
  let flag ← readU32At buf 19
  let nk ← readU64At buf 23
  let recs ← scanRecsAt buf 31 nk
  let es ← recs.1.mapM fun rc => do
    let s ← readSigsAt buf rc.2.2.1 rc.2.2.2
    some ((rc.1, rc.2.1), s.1)
  some (⟨w, k, r, ms, flag % 2 = 1⟩,
    es.foldl (fun m kv => mapInsert m kv.1 kv.2) [])

/-- Monotone growth of the fragment-group store: groups are only appended, and
an existing group's string list only grows at its end. -/
def GroupsExtend (gs gs' : List FragGroup) : Prop :=
  gs.length ≤ gs'.length ∧
  ∀ i, i < gs.length →
    ∃ t, (gs'.getD i FragGroup.new).seqs = (gs.getD i FragGroup.new).seqs ++ t

/-- Fragment id `fid` resolves, in the store `gs`, to exactly `bytes`. -/
def HoldsAt (gs : List FragGroup) (fid : Nat) (bytes : List Nat) : Prop :=
  decodeGid fid < gs.length ∧
  ((gs.getD (decodeGid fid) FragGroup.new).seqs).get? (decodeSub fid) = some bytes

/-- The byte contents of the internal fragments of a sequence: for each
adjacent minimizer pair, the region between the right edges of the two
minimizers. -/
def internSlices (seq : List Nat) (shmmrs : List MMin) : List (List Nat) :=
  (pairShmmrs shmmrs).map fun p => seqSlice seq (p.1.pos + 1) (p.2.pos + 1)

/-- Canonicalization invariant of the minimizer-pair index: every key
satisfies `h0 ≤ h1`. -/
def KeysCanon (m : ShmmrMapM) : Prop := ∀ kv ∈ m, kv.1.1 ≤ kv.1.2

/-- An ingest operation on a `CompactSeqDB`: either a compressed-store load
(`load_seqs_from_seq_vec` → `seq_to_compressed`) or an index-only load
(`load_index_from_seq_vec` → `seq_to_index`). -/
inductive IngestOp where
  | load (sid : Nat) (seq : List Nat) (shmmrs : List MMin)
  | index (sid seqlen : Nat) (shmmrs : List MMin)

/-- Apply one ingest operation. -/
def applyOp (db : CompactSeqDBM) : IngestOp → CompactSeqDBM
  | .load sid seq shmmrs => loadSeq db sid seq shmmrs
  | .index sid seqlen shmmrs =>
      { db with frag_map := loadIndexOne db.frag_map sid seqlen shmmrs }

/-- Apply a sequence of ingest operations. -/
def applyOps (db : CompactSeqDBM) (ops : List IngestOp) : CompactSeqDBM :=
  ops.foldl applyOp db

/-- A concrete ingest state for exercising the pair loop: the key `(5, 7)`
holds two orientation-0 signatures; the first one's group (id 0) is sealed,
the second one's group (id 1) is open and empty. -/
def c3State : IngestState :=
  ⟨[⟨[[1]], true⟩, ⟨[], false⟩],
   [((5, 7), [⟨1, 0, 1, 2, 0⟩, ⟨65, 0, 1, 2, 0⟩])], 2, [], 0⟩

/-- A minimizer pair with hashes `(5, 7)` (orientation 0) at positions 2, 4. -/
def c3Pair : MMin × MMin := (⟨5, 2⟩, ⟨7, 4⟩)

/-- A sorted, per-hit well-formed chain-hit list on which `filter_aln` loses
query monotonicity (its query end coordinates are not monotone). -/
def c6Input : List AlignSegmentM :=
  [((0, 10, 0), (0, 10, 0)), ((20, 100, 0), (20, 30, 0)),
   ((30, 35, 0), (40, 50, 0)), ((40, 45, 0), (60, 70, 0))]

/-- A bundle-run list in which the only key occurs twice. -/
def c9Smps : List SmpRec := [⟨"a", 0, 1, 0⟩, ⟨"a", 2, 3, 0⟩]

/-- Field bounds under which a `ShmmrSpec` survives the `u32` casts of the
`.mdb` header. -/
def SpecBounded (spec : ShmmrSpecM) : Prop :=
  spec.w < 2 ^ 32 ∧ spec.k < 2 ^ 32 ∧ spec.r < 2 ^ 32 ∧ spec.min_span < 2 ^ 32

/-- Field bounds under which a map survives the fixed-width casts of the
`.mdb` records. -/
def MdbBounded (m : ShmmrMapM) : Prop :=
  m.length < 2 ^ 64 ∧ ∀ kv ∈ m,
    kv.1.1 < 2 ^ 64 ∧ kv.1.2 < 2 ^ 64 ∧ kv.2.length < 2 ^ 64 ∧
    ∀ s ∈ kv.2, s.frag_id < 2 ^ 32 ∧ s.seq_id < 2 ^ 32 ∧ s.bgn < 2 ^ 32 ∧
      s.fend < 2 ^ 32 ∧ s.ori < 2 ^ 8

/-- Boolean check that every adjacent pair of a list satisfies `f` (used to
state decidable sortedness/monotonicity facts about concrete lists). -/
def adjAllB (f : α → α → Bool) : List α → Bool
  | [] => true
  | [_] => true
  | a :: b :: r => f a b && adjAllB f (b :: r)

/-! ## Theorems -/

/-- Claim C10: ingest and query canonicalize hash ties differently.  For an
adjacent minimizer pair whose two hashes are equal, the ingest-side test
`s0 <= s1` yields orientation 0 while the query-side tests `s0 < s1` in
`query_fragment` and `generate_smp_adj_list_for_seq` yield orientation 1, so
for an equal-hash key the query-side orientation never equals the stored
one. -/
theorem c10_tie_orientation_mismatch (h p0 p1 : Nat) :
    (canonPair h h).2 = 0 ∧
    (queryFragmentCanon h h p0 p1).2.2.2.2 = 1 ∧
    (smpAdjCanon h h p0 p1).2.2.2.2 = 1 ∧
    (queryFragmentCanon h h p0 p1).2.2.2.2 ≠ (canonPair h h).2 := by
  simp [canonPair, queryFragmentCanon, smpAdjCanon]

/-- Claim C4 (code bug evaluation): in the restricted graph with edges
`(v0, w)` and `(v1, w)`, the sink `w = (2,2,0)` has in-degree 2, yet the
terminal-marking loop of `get_principal_bundles_from_adj_list` does not mark
`w`: it inserts the edge sources `v0, v1` instead (seq_db.rs line 1099 inserts
`v` where the tested condition is about `w`). -/
theorem c4_terminal_marking_eval :
    1 < inDeg [((0, 0, 0), (2, 2, 0)), ((1, 1, 0), (2, 2, 0))] (2, 2, 0) ∧
    (2, 2, 0) ∉ terminalVertices [((0, 0, 0), (2, 2, 0)), ((1, 1, 0), (2, 2, 0))] ∧
    terminalVertices [((0, 0, 0), (2, 2, 0)), ((1, 1, 0), (2, 2, 0))] =
      [(0, 0, 0), (1, 1, 0)] := by
  decide

/-- Claim C3, counterexample: in `c3State` the key `(5, 7)` has two matching
orientation-0 signatures; the first one's group (id 0) is sealed while the
second one's group (id 1) is open and empty (it accepts an insert, witnessed by
`addFrag` returning sub-index 0).  Processing an adjacent pair with this key
opens a fresh third group and leaves group 1 untouched, refuting the claim
that the next matching signature's group is tried before a new group is
created. -/
theorem c3_counterexample :
    ((FragGroup.new.addFrag (seqSlice [1, 2, 3, 4, 5, 6] 1 5)).2 = some 0) ∧
    (stepPair 2 9 [1, 2, 3, 4, 5, 6] c3State c3Pair).frag_groups.length = 3 ∧
    ((stepPair 2 9 [1, 2, 3, 4, 5, 6] c3State c3Pair).frag_groups.getD 1
      FragGroup.new).seqs = [] := by
  decide

/-- Claim C7, counterexample: ingesting a sequence whose minimizer list is
empty yields a single fragment id of kind `0b00`; the last fragment does not
have kind bits `0b10`, refuting the claim for the empty-minimizer case. -/
theorem c7_counterexample :
    (seqToCompressed ⟨2, [], [], []⟩ 0 [9, 8, 7, 6, 5] []).1.seq_frags ≠ [] ∧
    decodeKind (((seqToCompressed ⟨2, [], [], []⟩ 0 [9, 8, 7, 6, 5] []).1.seq_frags).getLastD 99)
      = 0 := by
  decide

/-- Claim C9, counterexample: comparing the run list `c9Smps` (one key, two
occurrences) against itself returns `dist = 1`, not `0`: since no shared key
occurs exactly once on each side, no offset is collected and `align_smps`
returns through its early branch without evaluating the distance formula. -/
theorem c9_counterexample :
    allKeys c9Smps c9Smps ≠ [] ∧ alignSmpsDist c9Smps c9Smps = 1 := by
  constructor
  · decide
  · simp [alignSmpsDist, hasUniqueSharedKey, allKeys, c9Smps, fragsFor, SmpRec.key]

/-- Claim C6, counterexample: `c6Input` is a non-empty hit list sorted by
query start (and lexicographically), every hit has non-inverted query and
target spans and matching orientations, yet the query begin positions of the
windows `filter_aln` returns are `0, 10, 100, 35` - not strictly increasing.
The claim's monotonicity statement therefore fails on a sorted input. -/
theorem c6_counterexample :
    adjAllB (fun a b : AlignSegmentM => decide (a.1.1 < b.1.1)) c6Input = true ∧
    (c6Input.all fun s => decide (s.1.1 < s.1.2.1 ∧ s.2.1 < s.2.2.1 ∧ s.1.2.2 = s.2.2.2)) = true ∧
    ((filterAln c6Input).map fun w => w.2.1) = [0, 10, 100, 35] ∧
    adjAllB (fun a b : Nat => decide (a < b)) ((filterAln c6Input).map fun w => w.2.1)
      = false := by
  refine ⟨by decide, by decide, by decide, by decide⟩

/-- Claim C2: the inter-anchor variant-refiner classification follows exactly
the claimed order: short blocks (either length ≤ 16) are `FailShortSeq` with
no aligner run; then mismatching first or last 16 bytes give `FailEndMatch`;
then, when the length difference is at least 128, the SW aligner runs if both
lengths are below `max_sw_aln_size` (variants or `FailAln`) and otherwise the
result is `FailLengthDiff`; otherwise the WFA-style aligner runs with band
384 (variants or `FailAln`). -/
theorem c2_variant_refiner_dispatch (maxSw : Nat)
    (swAln : List Nat → List Nat → Option AlignmentResultM)
    (wfaAln : List Nat → List Nat → Nat → Option AlignmentResultM)
    (s0 s1 : List Nat) :
    (s0.length ≤ 16 ∨ s1.length ≤ 16 →
      alnDiffDispatch maxSw swAln wfaAln s0 s1 = .failShortSeq) ∧
    (16 < s0.length → 16 < s1.length →
      (s0.take 16 ≠ s1.take 16 ∨ s0.drop (s0.length - 16) ≠ s1.drop (s1.length - 16)) →
      alnDiffDispatch maxSw swAln wfaAln s0 s1 = .failEndMatch) ∧
    (16 < s0.length → 16 < s1.length →
      s0.take 16 = s1.take 16 → s0.drop (s0.length - 16) = s1.drop (s1.length - 16) →
      128 ≤ ((s0.length : ℤ) - (s1.length : ℤ)).natAbs →
      s0.length < maxSw → s1.length < maxSw →
      alnDiffDispatch maxSw swAln wfaAln s0 s1 =
        (match swAln s0 s1 with
         | some r => AlnDiffM.aligned r
         | none => AlnDiffM.failAln)) ∧
    (16 < s0.length → 16 < s1.length →
      s0.take 16 = s1.take 16 → s0.drop (s0.length - 16) = s1.drop (s1.length - 16) →
      128 ≤ ((s0.length : ℤ) - (s1.length : ℤ)).natAbs →
      (maxSw ≤ s0.length ∨ maxSw ≤ s1.length) →
      alnDiffDispatch maxSw swAln wfaAln s0 s1 = .failLengthDiff) ∧
    (16 < s0.length → 16 < s1.length →
      s0.take 16 = s1.take 16 → s0.drop (s0.length - 16) = s1.drop (s1.length - 16) →
      ((s0.length : ℤ) - (s1.length : ℤ)).natAbs < 128 →
      alnDiffDispatch maxSw swAln wfaAln s0 s1 =
        (match wfaAln s0 s1 384 with
         | some r => AlnDiffM.aligned r
         | none => AlnDiffM.failAln)) := by
  unfold alnDiffDispatch
  refine ⟨fun h => by rw [if_pos h], ?_, ?_, ?_, ?_⟩
  · intro h0 h1 hne
    rw [if_neg (by omega), if_pos hne]
  · intro h0 h1 he1 he2 hd hm0 hm1
    rw [if_neg (by omega), if_neg (by simp [he1, he2]), if_pos hd, if_pos ⟨hm0, hm1⟩]
  · intro h0 h1 he1 he2 hd hm
    rw [if_neg (by omega), if_neg (by simp [he1, he2]), if_pos hd, if_neg (by omega)]
  · intro h0 h1 he1 he2 hd
    rw [if_neg (by omega), if_neg (by simp [he1, he2]), if_neg (by omega)]

set_option maxRecDepth 10000 in
/-- Witness for C2: the five branches at concrete inputs. -/
theorem c2_witness :
    alnDiffDispatch 1000 (fun _ _ => none) (fun _ _ _ => some []) [] [] =
      .failShortSeq ∧
    alnDiffDispatch 1000 (fun _ _ => none) (fun _ _ _ => some [])
      (List.range 17) (List.replicate 17 0) = .failEndMatch ∧
    alnDiffDispatch 1000 (fun _ _ => none) (fun _ _ _ => some [])
      (List.replicate 17 0) (List.replicate 145 0) = .failAln ∧
    alnDiffDispatch 100 (fun _ _ => none) (fun _ _ _ => some [])
      (List.replicate 17 0) (List.replicate 145 0) = .failLengthDiff ∧
    alnDiffDispatch 1000 (fun _ _ => none) (fun _ _ _ => some [])
      (List.replicate 17 0) (List.replicate 17 0) = .aligned [] := by
  refine ⟨(c2_variant_refiner_dispatch 1000 _ _ _ _).1 (by decide),
    (c2_variant_refiner_dispatch 1000 _ _ _ _).2.1 (by decide) (by decide) (by decide),
    (c2_variant_refiner_dispatch 1000 _ _ _ _).2.2.1 (by decide) (by decide)
      (by decide) (by decide) (by decide) (by decide) (by decide),
    (c2_variant_refiner_dispatch 100 _ _ _ _).2.2.2.1 (by decide) (by decide)
      (by decide) (by decide) (by decide) (by decide),
    (c2_variant_refiner_dispatch 1000 _ _ _ _).2.2.2.2 (by decide) (by decide)
      (by decide) (by decide) (by decide)⟩

theorem canonPair_le (a b : Nat) : ((canonPair a b).1).1 ≤ ((canonPair a b).1).2 := by
  unfold canonPair
  split <;> simp <;> omega

theorem keysCanon_mapPushSig (m : ShmmrMapM) (k : ShmmrPairM) (s : FragSig)
    (hm : KeysCanon m) : KeysCanon (mapPushSig m k s) := by
  induction m with
  | nil => intro kv hkv; simp [mapPushSig] at hkv
  | cons hd tl ih =>
      obtain ⟨k0, v0⟩ := hd
      intro kv hkv
      simp only [mapPushSig] at hkv
      by_cases h : k0 = k
      · rw [if_pos h] at hkv
        rcases List.mem_cons.mp hkv with h1 | h2
        · subst h1; exact hm (k0, v0) (by simp)
        · exact hm kv (List.mem_cons_of_mem _ h2)
      · rw [if_neg h] at hkv
        rcases List.mem_cons.mp hkv with h1 | h2
        · subst h1; exact hm (k0, v0) (by simp)
        · exact ih (fun kv hkv => hm kv (List.mem_cons_of_mem _ hkv)) kv h2

theorem keysCanon_mapInsert (m : ShmmrMapM) (k : ShmmrPairM) (v : List FragSig)
    (hm : KeysCanon m) (hk : k.1 ≤ k.2) : KeysCanon (mapInsert m k v) := by
  induction m with
  | nil => intro kv hkv; simp [mapInsert] at hkv; simp [hkv, hk]
  | cons hd tl ih =>
      obtain ⟨k0, v0⟩ := hd
      intro kv hkv
      simp only [mapInsert] at hkv
      by_cases h : k0 = k
      · rw [if_pos h] at hkv
        rcases List.mem_cons.mp hkv with h1 | h2
        · subst h1; simpa [h] using hk
        · exact hm kv (List.mem_cons_of_mem _ h2)
      · rw [if_neg h] at hkv
        rcases List.mem_cons.mp hkv with h1 | h2
        · subst h1; exact hm (k0, v0) (by simp)
        · exact ih (fun kv hkv => hm kv (List.mem_cons_of_mem _ hkv)) kv h2

theorem keysCanon_mapEntryPush (m : ShmmrMapM) (k : ShmmrPairM) (s : FragSig)
    (hm : KeysCanon m) (hk : k.1 ≤ k.2) : KeysCanon (mapEntryPush m k s) := by
  induction m with
  | nil => intro kv hkv; simp [mapEntryPush] at hkv; simp [hkv, hk]
  | cons hd tl ih =>
      obtain ⟨k0, v0⟩ := hd
      intro kv hkv
      simp only [mapEntryPush] at hkv
      by_cases h : k0 = k
      · rw [if_pos h] at hkv
        rcases List.mem_cons.mp hkv with h1 | h2
        · subst h1; exact hm (k0, v0) (by simp)
        · exact hm kv (List.mem_cons_of_mem _ h2)
      · rw [if_neg h] at hkv
        rcases List.mem_cons.mp hkv with h1 | h2
        · subst h1; exact hm (k0, v0) (by simp)
        · exact ih (fun kv hkv => hm kv (List.mem_cons_of_mem _ hkv)) kv h2

theorem keysCanon_stepPair (k sid : Nat) (seq : List Nat) (st : IngestState)
    (p : MMin × MMin) (hm : KeysCanon st.frag_map) :
    KeysCanon (stepPair k sid seq st p).frag_map := by
  unfold stepPair
  dsimp only
  split
  · exact keysCanon_mapInsert _ _ _ hm (canonPair_le _ _)
  · split
    · exact keysCanon_mapInsert _ _ _ hm (canonPair_le _ _)
    · split
      · exact keysCanon_mapPushSig _ _ _ hm
      · exact keysCanon_mapPushSig _ _ _ hm

theorem keysCanon_foldl_stepPair (k sid : Nat) (seq : List Nat)
    (pairs : List (MMin × MMin)) (st : IngestState) (hm : KeysCanon st.frag_map) :
    KeysCanon (pairs.foldl (stepPair k sid seq) st).frag_map := by
  induction pairs generalizing st with
  | nil => exact hm
  | cons hd tl ih => exact ih _ (keysCanon_stepPair _ _ _ _ _ hm)

theorem keysCanon_seqToCompressed (db : CompactSeqDBM) (sid : Nat)
    (seq : List Nat) (shmmrs : List MMin) (hm : KeysCanon db.frag_map) :
    KeysCanon (seqToCompressed db sid seq shmmrs).2.frag_map := by
  unfold seqToCompressed
  cases shmmrs with
  | nil => exact hm
  | cons m0 rest => exact keysCanon_foldl_stepPair _ _ _ _ _ hm

theorem keysCanon_loadIndexOne (m : ShmmrMapM) (sid seqlen : Nat)
    (shmmrs : List MMin) (hm : KeysCanon m) :
    KeysCanon (loadIndexOne m sid seqlen shmmrs) := by
  unfold loadIndexOne seqToIndex
  cases shmmrs with
  | nil => simpa using hm
  | cons m0 rest =>
      dsimp only
      generalize (pairShmmrs (m0 :: rest)) = ps
      generalize List.range ps.length = idxs
      have : ∀ (l : List ((ShmmrPairM × Nat × Nat × Nat) × Nat)) (acc : ShmmrMapM),
          (∀ x ∈ l, (x.1.1).1 ≤ (x.1.1).2) → KeysCanon acc →
          KeysCanon (l.foldl
            (fun acc x => mapEntryPush acc x.1.1 ⟨x.2, sid, x.1.2.1, x.1.2.2.1, x.1.2.2.2⟩)
            acc) := by
        intro l
        induction l with
        | nil => intro acc _ ha; exact ha
        | cons hd tl ih =>
            intro acc hl ha
            exact ih _ (fun x hx => hl x (by simp [hx]))
              (keysCanon_mapEntryPush _ _ _ ha (hl hd (by simp)))
      refine this _ m ?_ hm
      intro x hx
      rcases List.of_mem_zip hx with ⟨hx1, _⟩
      simp only [List.mem_map] at hx1
      rcases hx1 with ⟨q, _, hq⟩
      rw [← hq]
      exact canonPair_le _ _

/-- Claim C5: every key stored in the minimizer-pair index is canonical
(`h0 ≤ h1`): raw adjacent hash pairs `(a, b)` with `a > b` are stored as
`(b, a)` with orientation 1, else as `(a, b)` with orientation 0, in both
`seq_to_compressed` and `seq_to_index`, and the invariant is preserved by any
sequence of ingest operations. -/
theorem c5_canonical_keys_invariant (db : CompactSeqDBM) (ops : List IngestOp)
    (hm : KeysCanon db.frag_map) :
    ((∀ a b : Nat, b < a → (canonPair a b).1 = (b, a) ∧ (canonPair a b).2 = 1) ∧
     (∀ a b : Nat, a ≤ b → (canonPair a b).1 = (a, b) ∧ (canonPair a b).2 = 0)) ∧
    KeysCanon (applyOps db ops).frag_map := by
  constructor
  · constructor
    · intro a b hba
      unfold canonPair
      rw [if_neg (by omega)]
      exact ⟨rfl, rfl⟩
    · intro a b hab
      unfold canonPair
      rw [if_pos hab]
      exact ⟨rfl, rfl⟩
  · induction ops generalizing db with
    | nil => exact hm
    | cons op rest ih =>
        refine ih _ ?_
        cases op with
        | load sid seq shmmrs =>
            exact keysCanon_seqToCompressed _ _ _ _ hm
        | index sid seqlen shmmrs =>
            exact keysCanon_loadIndexOne _ _ _ _ hm

/-- Witness for C5: a concrete two-operation ingest run from the empty
database, whose resulting index keys are all canonical. -/
theorem c5_witness :
    KeysCanon (⟨2, [], [], []⟩ : CompactSeqDBM).frag_map ∧
    KeysCanon (applyOps ⟨2, [], [], []⟩
      [.load 0 [9, 8, 7, 6, 5, 4] [⟨11, 1⟩, ⟨10, 3⟩],
       .index 1 6 [⟨7, 1⟩, ⟨7, 3⟩]]).frag_map :=
  ⟨fun kv hkv => absurd hkv (List.not_mem_nil kv),
   (c5_canonical_keys_invariant ⟨2, [], [], []⟩
    [.load 0 [9, 8, 7, 6, 5, 4] [⟨11, 1⟩, ⟨10, 3⟩],
     .index 1 6 [⟨7, 1⟩, ⟨7, 3⟩]]
    (fun kv hkv => absurd hkv (List.not_mem_nil kv))).2⟩

theorem decodeKind_mkFragId (g s kk : Nat) (hk : kk < 4) :
    decodeKind (mkFragId g s kk) = kk := by
  unfold decodeKind mkFragId
  omega

theorem decodeSub_mkFragId (g s kk : Nat) (hs : s < 16) (hk : kk < 4) :
    decodeSub (mkFragId g s kk) = s := by
  unfold decodeSub mkFragId
  omega

theorem decodeGid_mkFragId (g s kk : Nat) (hg : g < 2 ^ 26) (hs : s < 16)
    (hk : kk < 4) : decodeGid (mkFragId g s kk) = g := by
  unfold decodeGid mkFragId
  omega

theorem addFrag_some (g : FragGroup) (v : List Nat) (sub : Nat)
    (h : (g.addFrag v).2 = some sub) :
    sub = g.seqs.length ∧ (g.addFrag v).1.seqs = g.seqs ++ [v] ∧
      g.seqs.length < 16 := by
  unfold FragGroup.addFrag at *
  by_cases h1 : FRAG_GROUP_MAX ≤ g.seqs.length
  · rw [if_pos h1] at h; simp at h
  · rw [if_neg h1] at h ⊢
    by_cases h2 : g.compressed
    · rw [if_pos h2] at h; simp at h
    · rw [if_neg h2] at h ⊢
      simp at h
      refine ⟨h.symm, rfl, ?_⟩
      simpa [FRAG_GROUP_MAX] using h1

theorem addFrag_none_seqs (g : FragGroup) (v : List Nat)
    (h : (g.addFrag v).2 = none) : (g.addFrag v).1.seqs = g.seqs := by
  unfold FragGroup.addFrag at *
  by_cases h1 : FRAG_GROUP_MAX ≤ g.seqs.length
  · rw [if_pos h1]
  · rw [if_neg h1] at h ⊢
    by_cases h2 : g.compressed
    · rw [if_pos h2]
    · rw [if_neg h2] at h; simp at h

theorem groupsExtend_refl (gs : List FragGroup) : GroupsExtend gs gs :=
  ⟨le_refl _, fun i _ => ⟨[], by simp⟩⟩

theorem groupsExtend_trans (g1 g2 g3 : List FragGroup)
    (h12 : GroupsExtend g1 g2) (h23 : GroupsExtend g2 g3) :
    GroupsExtend g1 g3 := by
  refine ⟨le_trans h12.1 h23.1, fun i hi => ?_⟩
  obtain ⟨t1, ht1⟩ := h12.2 i hi
  obtain ⟨t2, ht2⟩ := h23.2 i (lt_of_lt_of_le hi h12.1)
  exact ⟨t1 ++ t2, by rw [ht2, ht1, List.append_assoc]⟩

theorem groupsExtend_append (gs : List FragGroup) (l : List FragGroup) :
    GroupsExtend gs (gs ++ l) := by
  refine ⟨by simp, fun i hi => ?_⟩
  refine ⟨[], by rw [List.getD_eq_getElem?_getD, List.getD_eq_getElem?_getD,
    List.getElem?_append_left hi, List.append_nil]⟩

theorem groupsExtend_set (gs : List FragGroup) (i : Nat) (g' : FragGroup)
    (t : List (List Nat))
    (h : g'.seqs = (gs.getD i FragGroup.new).seqs ++ t) :
    GroupsExtend gs (gs.set i g') := by
  refine ⟨by simp, fun j hj => ?_⟩
  by_cases hij : i = j
  · subst hij
    refine ⟨t, ?_⟩
    rw [List.getD_eq_getElem?_getD (gs.set i g'), List.getElem?_set_self
      (by simpa using hj)]
    simpa using h
  · refine ⟨[], ?_⟩
    rw [List.getD_eq_getElem?_getD (gs.set i g'), List.getElem?_set_ne hij,
      List.append_nil, List.getD_eq_getElem?_getD]

theorem holdsAt_fragLookup (gs : List FragGroup) (fid : Nat) (b : List Nat)
    (h : HoldsAt gs fid b) : fragLookup gs fid = b := by
  unfold fragLookup FragGroup.getFrag
  rw [List.getD_eq_getElem?_getD, ← List.get?_eq_getElem?, h.2]
  rfl

theorem holdsAt_mono (gs gs' : List FragGroup) (fid : Nat) (b : List Nat)
    (hext : GroupsExtend gs gs') (h : HoldsAt gs fid b) : HoldsAt gs' fid b := by
  obtain ⟨hlt1, hget⟩ := h
  obtain ⟨t, ht⟩ := hext.2 (decodeGid fid) hlt1
  refine ⟨lt_of_lt_of_le hlt1 hext.1, ?_⟩
  rw [ht]
  have hlt : decodeSub fid < ((gs.getD (decodeGid fid) FragGroup.new).seqs).length := by
    rcases List.get?_eq_some.mp hget with ⟨hl, _⟩
    exact hl
  rw [List.get?_eq_getElem?] at hget ⊢
  rw [List.getElem?_append_left hlt]
  exact hget

theorem findCandidate_some (n ori : Nat) (e : List FragSig) (t : FragSig)
    (h : findCandidate n ori e = some t) :
    t.ori = ori ∧ decodeGid t.frag_id < n := by
  induction e with
  | nil => simp [findCandidate] at h
  | cons hd tl ih =>
      unfold findCandidate at h
      by_cases hc : hd.ori = ori ∧ decodeGid hd.frag_id < n
      · rw [if_pos hc] at h
        cases h
        exact hc
      · rw [if_neg hc] at h
        exact ih h

theorem getD_concat_self (l : List FragGroup) (g d : FragGroup) :
    (l ++ [g]).getD l.length d = g := by
  rw [List.getD_eq_getElem?_getD, ← List.get?_eq_getElem?, List.get?_concat_length]
  rfl

theorem getD_set_self (l : List FragGroup) (i : Nat) (x d : FragGroup)
    (h : i < l.length) : (l.set i x).getD i d = x := by
  rw [List.getD_eq_getElem?_getD, List.getElem?_set_self (by simpa using h)]
  rfl

theorem stepPair_spec (k sid : Nat) (seq : List Nat) (st : IngestState)
    (p : MMin × MMin) (hctr : st.frag_group_id = st.frag_groups.length) :
    GroupsExtend st.frag_groups (stepPair k sid seq st p).frag_groups ∧
    (stepPair k sid seq st p).frag_group_id =
      (stepPair k sid seq st p).frag_groups.length ∧
    (stepPair k sid seq st p).frag_groups.length ≤ st.frag_groups.length + 1 ∧
    ∃ fid, (stepPair k sid seq st p).seq_frags = st.seq_frags ++ [fid] ∧
      decodeKind fid = 1 ∧
      (st.frag_groups.length < 2 ^ 26 →
        HoldsAt (stepPair k sid seq st p).frag_groups fid
          (seqSlice seq (p.1.pos + 1 - k) (p.2.pos + 1))) := by
  unfold stepPair
  dsimp only
  split
  · -- key absent: fresh group
    refine ⟨groupsExtend_append _ _, by simp [hctr], by simp,
      mkFragId st.frag_group_id 0 1, rfl, decodeKind_mkFragId _ _ _ (by norm_num), ?_⟩
    intro hb
    have hg : decodeGid (mkFragId st.frag_group_id 0 1) = st.frag_groups.length := by
      rw [hctr]
      exact decodeGid_mkFragId _ _ _ (by omega) (by norm_num) (by norm_num)
    have hs : decodeSub (mkFragId st.frag_group_id 0 1) = 0 :=
      decodeSub_mkFragId _ _ _ (by norm_num) (by norm_num)
    refine ⟨by rw [hg]; simp, ?_⟩
    rw [hg, hs, getD_concat_self]
    rfl
  · split
    · -- no matching candidate: fresh group
      refine ⟨groupsExtend_append _ _, by simp [hctr], by simp,
        mkFragId st.frag_group_id 0 1, rfl, decodeKind_mkFragId _ _ _ (by norm_num), ?_⟩
      intro hb
      have hg : decodeGid (mkFragId st.frag_group_id 0 1) = st.frag_groups.length := by
        rw [hctr]
        exact decodeGid_mkFragId _ _ _ (by omega) (by norm_num) (by norm_num)
      have hs : decodeSub (mkFragId st.frag_group_id 0 1) = 0 :=
        decodeSub_mkFragId _ _ _ (by norm_num) (by norm_num)
      refine ⟨by rw [hg]; simp, ?_⟩
      rw [hg, hs, getD_concat_self]
      rfl
    · rename_i e t hfound
      have hcand := findCandidate_some _ _ _ _ hfound
      split
      · -- the candidate group accepts
        rename_i sub haccept
        obtain ⟨hsub, hseqs, hlt16⟩ := addFrag_some _ _ _ haccept
        refine ⟨groupsExtend_set _ _ _ [seqSlice seq (p.1.pos + 1 - k) (p.2.pos + 1)]
            hseqs, by simpa using hctr, by simp,
          mkFragId (decodeGid t.frag_id) sub 1, rfl,
          decodeKind_mkFragId _ _ _ (by norm_num), ?_⟩
        intro hb
        have hg : decodeGid (mkFragId (decodeGid t.frag_id) sub 1) =
            decodeGid t.frag_id :=
          decodeGid_mkFragId _ _ _ (by omega) (by omega) (by norm_num)
        have hs : decodeSub (mkFragId (decodeGid t.frag_id) sub 1) = sub :=
          decodeSub_mkFragId _ _ _ (by omega) (by norm_num)
        refine ⟨by rw [hg]; simpa using hcand.2, ?_⟩
        rw [hg, hs, getD_set_self _ _ _ _ hcand.2, hseqs, hsub]
        exact List.get?_concat_length _ _
      · -- the candidate group rejects: fresh group immediately
        rename_i hreject
        have hseqs := addFrag_none_seqs _ _ hreject
        refine ⟨groupsExtend_trans _ _ _
            (groupsExtend_set _ _ _ [] (by simpa using hseqs))
            (groupsExtend_append _ _),
          by simp [hctr], by simp,
          mkFragId st.frag_group_id 0 1, rfl,
          decodeKind_mkFragId _ _ _ (by norm_num), ?_⟩
        intro hb
        have hg : decodeGid (mkFragId st.frag_group_id 0 1) = st.frag_groups.length := by
          rw [hctr]
          exact decodeGid_mkFragId _ _ _ (by omega) (by norm_num) (by norm_num)
        have hs : decodeSub (mkFragId st.frag_group_id 0 1) = 0 :=
          decodeSub_mkFragId _ _ _ (by norm_num) (by norm_num)
        refine ⟨by rw [hg]; simp, ?_⟩
        have hlen : (List.set st.frag_groups (decodeGid t.frag_id)
            ((st.frag_groups.getD (decodeGid t.frag_id) FragGroup.new).addFrag
              (seqSlice seq (p.1.pos + 1 - k) (p.2.pos + 1))).1).length =
            st.frag_groups.length := by simp
        rw [hg, hs, ← hlen, getD_concat_self]
        rfl

theorem reconstruct_append (gs : List FragGroup) (k : Nat) (l1 l2 : List Nat) :
    reconstructSeqFromFrags gs k (l1 ++ l2) =
      reconstructSeqFromFrags gs k l1 ++ reconstructSeqFromFrags gs k l2 := by
  induction l1 with
  | nil => simp [reconstructSeqFromFrags]
  | cons hd tl ih =>
      simp only [List.cons_append, reconstructSeqFromFrags]
      rw [List.append_assoc]
      congr 1

theorem drop_seqSlice (seq : List Nat) (k b e : Nat) (hk : k ≤ b) :
    (seqSlice seq (b - k) e).drop k = seqSlice seq b e := by
  unfold seqSlice
  rw [List.drop_drop]
  congr 1
  omega

theorem foldl_stepPair_spec (k sid : Nat) (seq : List Nat)
    (pairs : List (MMin × MMin)) (st : IngestState)
    (hctr : st.frag_group_id = st.frag_groups.length)
    (hbound : st.frag_groups.length + pairs.length ≤ 2 ^ 26)
    (hkle : ∀ p ∈ pairs, k ≤ p.1.pos + 1) :
    ∃ emitted,
      (pairs.foldl (stepPair k sid seq) st).seq_frags = st.seq_frags ++ emitted ∧
      emitted.length = pairs.length ∧
      GroupsExtend st.frag_groups (pairs.foldl (stepPair k sid seq) st).frag_groups ∧
      (pairs.foldl (stepPair k sid seq) st).frag_group_id =
        (pairs.foldl (stepPair k sid seq) st).frag_groups.length ∧
      (pairs.foldl (stepPair k sid seq) st).frag_groups.length ≤
        st.frag_groups.length + pairs.length ∧
      (∀ f ∈ emitted, decodeKind f = 1) ∧
      (∀ f ∈ emitted,
        decodeGid f < (pairs.foldl (stepPair k sid seq) st).frag_groups.length) ∧
      reconstructSeqFromFrags (pairs.foldl (stepPair k sid seq) st).frag_groups k
          emitted =
        ((pairs.map fun p => seqSlice seq (p.1.pos + 1) (p.2.pos + 1))).flatten := by
  induction pairs generalizing st with
  | nil =>
      exact ⟨[], by simp, rfl, groupsExtend_refl _, hctr, by simp,
        by simp, by simp, by simp [reconstructSeqFromFrags]⟩
  | cons p ps ih =>
      obtain ⟨hext1, hctr1, hle1, fid, hfrags1, hkind1, hholds1⟩ :=
        stepPair_spec k sid seq st p hctr
      have hholds1' := hholds1 (by simp at hbound; omega)
      obtain ⟨emitted, hfrags2, hlen2, hext2, hctr2, hle2, hkind2, hgid2, hrec2⟩ :=
        ih (stepPair k sid seq st p) hctr1
          (by simp at hbound ⊢; omega)
          (fun q hq => hkle q (by simp [hq]))
      refine ⟨fid :: emitted, ?_, by simpa using hlen2, groupsExtend_trans _ _ _ hext1 hext2,
        hctr2, by simp at hle2 ⊢; omega, ?_, ?_, ?_⟩
      · rw [List.foldl_cons, hfrags2, hfrags1, List.append_assoc]
        rfl
      · intro f hf
        rcases List.mem_cons.mp hf with h | h
        · subst h; exact hkind1
        · exact hkind2 f h
      · intro f hf
        rcases List.mem_cons.mp hf with h | h
        · subst h
          rw [List.foldl_cons]
          exact lt_of_lt_of_le hholds1'.1 hext2.1
        · exact hgid2 f h
      · rw [List.foldl_cons] at *
        have hlook : fragLookup (ps.foldl (stepPair k sid seq)
            (stepPair k sid seq st p)).frag_groups fid =
            seqSlice seq (p.1.pos + 1 - k) (p.2.pos + 1) :=
          holdsAt_fragLookup _ _ _ (holdsAt_mono _ _ _ _ hext2 hholds1')
        simp only [reconstructSeqFromFrags, List.map_cons, List.flatten_cons]
        rw [hlook, hkind1]
        norm_num
        rw [hrec2, drop_seqSlice seq k _ _ (hkle p (by simp))]

theorem take_append_slice (seq : List Nat) (b e : Nat) (h : b ≤ e) :
    seq.take b ++ seqSlice seq b e = seq.take e := by
  unfold seqSlice
  have h1 : seq.take b = (seq.take e).take b := by
    rw [List.take_take, Nat.min_eq_left h]
  rw [h1, List.take_append_drop]

theorem pairShmmrs_cons_cons (a b : MMin) (l : List MMin) :
    pairShmmrs (a :: b :: l) = (a, b) :: pairShmmrs (b :: l) := by
  unfold pairShmmrs
  cases l with
  | nil => simp
  | cons c r =>
      rw [if_neg (by simp), if_neg (by simp)]
      simp [List.dropLast_cons₂]

theorem tile_slices (seq : List Nat) (rest : List MMin) : ∀ m0 : MMin,
    List.Chain' (fun a b : MMin => a.pos ≤ b.pos) (m0 :: rest) →
    seq.take (m0.pos + 1) ++ (internSlices seq (m0 :: rest)).flatten ++
      seq.drop (((m0 :: rest).getLastD m0).pos + 1) = seq := by
  induction rest with
  | nil =>
      intro m0 _
      simp [internSlices, pairShmmrs, List.take_append_drop]
  | cons m1 rest' ih =>
      intro m0 hchain
      have h01 : m0.pos ≤ m1.pos := (List.chain'_cons.mp hchain).1
      have hch : List.Chain' (fun a b : MMin => a.pos ≤ b.pos) (m1 :: rest') :=
        (List.chain'_cons.mp hchain).2
      have hrest := ih m1 hch
      simp only [internSlices, pairShmmrs_cons_cons, List.map_cons, List.flatten_cons]
      have hlast : ((m0 :: m1 :: rest').getLastD m0) = ((m1 :: rest').getLastD m1) := by
        rw [List.getLastD_cons, List.getLastD_cons]
        cases rest' <;> simp
      rw [hlast, ← List.append_assoc,
        take_append_slice seq _ _ (by omega)]
      simpa only [internSlices, List.append_assoc] using hrest

theorem getD_concat_selfP {α : Type} (l : List α) (x d : α) :
    (l ++ [x]).getD l.length d = x := by
  rw [List.getD_eq_getElem?_getD, ← List.get?_eq_getElem?, List.get?_concat_length]
  rfl

theorem pairShmmrs_length (l : List MMin) : (pairShmmrs l).length = l.length - 1 := by
  unfold pairShmmrs
  by_cases h : l.length < 2
  · rw [if_pos h]
    simp only [List.length_nil]
    omega
  · rw [if_neg h]
    simp only [List.length_zip, List.length_dropLast, List.length_tail]
    omega

theorem mem_pairShmmrs (l : List MMin) (p : MMin × MMin) (h : p ∈ pairShmmrs l) :
    p.1 ∈ l ∧ p.2 ∈ l := by
  unfold pairShmmrs at h
  split at h
  · simp at h
  · rcases List.of_mem_zip h with ⟨h1, h2⟩
    exact ⟨List.dropLast_subset _ h1, List.tail_subset _ h2⟩

theorem reconstruct_stable (gs l : List FragGroup) (k : Nat) (fids : List Nat)
    (h : ∀ f ∈ fids, decodeGid f < gs.length) :
    reconstructSeqFromFrags (gs ++ l) k fids = reconstructSeqFromFrags gs k fids := by
  induction fids with
  | nil => rfl
  | cons hd tl ih =>
      have hlook : fragLookup (gs ++ l) hd = fragLookup gs hd := by
        unfold fragLookup
        rw [List.getD_eq_getElem?_getD, List.getD_eq_getElem?_getD,
          List.getElem?_append_left (h hd (by simp))]
      simp only [reconstructSeqFromFrags, hlook, ih (fun f hf => h f (by simp [hf]))]

theorem seqToCompressed_reconstructs (db : CompactSeqDBM) (sid : Nat)
    (seq : List Nat) (shmmrs : List MMin)
    (hchain : List.Chain' (fun a b : MMin => a.pos ≤ b.pos) shmmrs)
    (hk : ∀ m ∈ shmmrs, db.shmmr_k ≤ m.pos + 1)
    (hbound : db.frag_groups.length + shmmrs.length + 2 ≤ 2 ^ 26) :
    reconstructSeqFromFrags (seqToCompressed db sid seq shmmrs).2.frag_groups
      db.shmmr_k (seqToCompressed db sid seq shmmrs).1.seq_frags = seq := by
  cases shmmrs with
  | nil =>
      unfold seqToCompressed
      dsimp only
      have h0 : decodeKind (mkFragId db.frag_groups.length 0 0) = 0 :=
        decodeKind_mkFragId _ _ _ (by norm_num)
      have hg : decodeGid (mkFragId db.frag_groups.length 0 0) =
          db.frag_groups.length := by
        refine decodeGid_mkFragId _ _ _ ?_ (by norm_num) (by norm_num)
        simp at hbound
        omega
      have hs : decodeSub (mkFragId db.frag_groups.length 0 0) = 0 :=
        decodeSub_mkFragId _ _ _ (by norm_num) (by norm_num)
      simp only [reconstructSeqFromFrags, h0, if_pos]
      unfold fragLookup FragGroup.getFrag
      rw [hg, hs, getD_concat_self]
      simp
  | cons m0 rest =>
      unfold seqToCompressed
      dsimp only
      set st0 : IngestState :=
        { frag_groups := db.frag_groups ++ [⟨[seq.take (m0.pos + 1)], false⟩]
          frag_map := db.frag_map
          frag_group_id := db.frag_groups.length + 1
          seq_frags := [mkFragId db.frag_groups.length 0 0]
          seq_len := m0.pos + 1 } with hst0
      set st1 : IngestState :=
        (pairShmmrs (m0 :: rest)).foldl (stepPair db.shmmr_k sid seq) st0 with hst1
      have hst0g : st0.frag_groups.length = db.frag_groups.length + 1 := by
        rw [hst0]
        simp
      have hst0ctr : st0.frag_group_id = st0.frag_groups.length := by
        rw [hst0g, hst0]
      obtain ⟨emitted, hfrags, hlen, hext, hctr, hle, hkind, hgid, hrec⟩ :=
        foldl_stepPair_spec db.shmmr_k sid seq (pairShmmrs (m0 :: rest)) st0
          hst0ctr
          (by rw [hst0g, pairShmmrs_length]; simp at hbound ⊢; omega)
          (fun q hq => hk q.1 (mem_pairShmmrs _ q hq).1)
      rw [← hst1] at hfrags hext hctr hle hgid hrec
      have hst0f : st0.seq_frags = [mkFragId db.frag_groups.length 0 0] := by
        rw [hst0]
      rw [hfrags, hst0f]
      rw [List.append_assoc, reconstruct_append, reconstruct_append]
      have hgdb : db.frag_groups.length < 2 ^ 26 := by simp at hbound; omega
      have hpfkind : decodeKind (mkFragId db.frag_groups.length 0 0) = 0 :=
        decodeKind_mkFragId _ _ _ (by norm_num)
      have hpfgid : decodeGid (mkFragId db.frag_groups.length 0 0) =
          db.frag_groups.length :=
        decodeGid_mkFragId _ _ _ hgdb (by norm_num) (by norm_num)
      have hpfsub : decodeSub (mkFragId db.frag_groups.length 0 0) = 0 :=
        decodeSub_mkFragId _ _ _ (by norm_num) (by norm_num)
      have hpfholds : HoldsAt st0.frag_groups (mkFragId db.frag_groups.length 0 0)
          (seq.take (m0.pos + 1)) := by
        rw [hst0]
        refine ⟨by rw [hpfgid]; simp, ?_⟩
        rw [hpfgid, hpfsub, getD_concat_self]
        rfl
      have hpfholds2 : HoldsAt
          (st1.frag_groups ++ [⟨[seq.drop (((m0 :: rest).getLastD m0).pos + 1)], false⟩])
          (mkFragId db.frag_groups.length 0 0) (seq.take (m0.pos + 1)) :=
        holdsAt_mono _ _ _ _
          (groupsExtend_trans _ _ _ hext (groupsExtend_append _ _)) hpfholds
      have hslen : st1.frag_groups.length < 2 ^ 26 := by
        have h1 := hle
        have h2 := pairShmmrs_length (m0 :: rest)
        rw [hst0g] at h1
        simp only [List.length_cons] at h1 h2 hbound
        omega
      have hsufkind : decodeKind (mkFragId st1.frag_group_id 0 2) = 2 :=
        decodeKind_mkFragId _ _ _ (by norm_num)
      have hsufgid : decodeGid (mkFragId st1.frag_group_id 0 2) =
          st1.frag_groups.length := by
        rw [hctr]
        exact decodeGid_mkFragId _ _ _ hslen (by norm_num) (by norm_num)
      have hsufsub : decodeSub (mkFragId st1.frag_group_id 0 2) = 0 :=
        decodeSub_mkFragId _ _ _ (by norm_num) (by norm_num)
      have hsuflook : fragLookup
          (st1.frag_groups ++ [⟨[seq.drop (((m0 :: rest).getLastD m0).pos + 1)], false⟩])
          (mkFragId st1.frag_group_id 0 2) =
          seq.drop (((m0 :: rest).getLastD m0).pos + 1) := by
        unfold fragLookup FragGroup.getFrag
        rw [hsufgid, hsufsub, getD_concat_self]
        rfl
      simp only [reconstructSeqFromFrags, List.append_nil, hpfkind, hsufkind,
        reduceIte]
      rw [holdsAt_fragLookup _ _ _ hpfholds2, hsuflook]
      rw [reconstruct_stable _ _ _ _ hgid, hrec]
      have htile := tile_slices seq rest m0 hchain
      simp only [internSlices] at htile
      simpa only [List.append_assoc] using htile

/-- Claim C1: reconstruction fidelity.  For a sequence ingested by
`seq_to_compressed` (with its minimizers in position order, each minimizer
covering a full k-mer inside the sequence, and the group store within the
26-bit group-id capacity), `get_seq_by_id` returns exactly the original byte
string, and `get_sub_seq_by_id sid b e` returns exactly `s[b..e]` for
`b ≤ e ≤ len`. -/
theorem c1_reconstruction_fidelity (db : CompactSeqDBM) (seq : List Nat)
    (shmmrs : List MMin)
    (hchain : List.Chain' (fun a b : MMin => a.pos ≤ b.pos) shmmrs)
    (hk : ∀ m ∈ shmmrs, db.shmmr_k ≤ m.pos + 1)
    (hlen : ∀ m ∈ shmmrs, m.pos + 1 ≤ seq.length)
    (hbound : db.frag_groups.length + shmmrs.length + 2 ≤ 2 ^ 26) :
    getSeqById (loadSeq db db.seqs.length seq shmmrs) db.seqs.length = seq ∧
    ∀ b e, b ≤ e → e ≤ seq.length →
      getSubSeqById (loadSeq db db.seqs.length seq shmmrs) db.seqs.length b e =
        seqSlice seq b e := by
  have hseqs : (seqToCompressed db db.seqs.length seq shmmrs).2.seqs = db.seqs := by
    unfold seqToCompressed
    cases shmmrs <;> rfl
  have hk2 : (seqToCompressed db db.seqs.length seq shmmrs).2.shmmr_k =
      db.shmmr_k := by
    unfold seqToCompressed
    cases shmmrs <;> rfl
  have hmain : getSeqById (loadSeq db db.seqs.length seq shmmrs)
      db.seqs.length = seq := by
    unfold loadSeq getSeqById
    dsimp only
    rw [hseqs, getD_concat_selfP, hk2]
    exact seqToCompressed_reconstructs db db.seqs.length seq shmmrs hchain hk hbound
  refine ⟨hmain, fun b e hbe hel => ?_⟩
  unfold getSubSeqById
  rw [hmain]

/-- Witness for C1: a concrete six-byte sequence with two minimizers
round-trips through ingest and reconstruction, and a middle range is sliced
exactly. -/
theorem c1_witness :
    getSeqById (loadSeq ⟨2, [], [], []⟩
        (⟨2, [], [], []⟩ : CompactSeqDBM).seqs.length [9, 8, 7, 6, 5, 4]
        [⟨10, 1⟩, ⟨11, 3⟩]) (⟨2, [], [], []⟩ : CompactSeqDBM).seqs.length =
      [9, 8, 7, 6, 5, 4] ∧
    getSubSeqById (loadSeq ⟨2, [], [], []⟩
        (⟨2, [], [], []⟩ : CompactSeqDBM).seqs.length [9, 8, 7, 6, 5, 4]
        [⟨10, 1⟩, ⟨11, 3⟩]) (⟨2, [], [], []⟩ : CompactSeqDBM).seqs.length 1 4 =
      [8, 7, 6] := by
  have h := c1_reconstruction_fidelity ⟨2, [], [], []⟩ [9, 8, 7, 6, 5, 4]
    [⟨10, 1⟩, ⟨11, 3⟩] (by norm_num [List.chain'_cons]) (by decide) (by decide)
    (by norm_num)
  exact ⟨h.1, by rw [h.2 1 4 (by norm_num) (by norm_num)]; decide⟩

/-- Claim C3, amended: when the minimizer-pair key exists in the index, the
pair loop of `seq_to_compressed` resolves on the FIRST signature with matching
orientation and in-range group id: if that signature's group accepts the
insert, the bytes are appended there with an internal-kind fragment id; if it
rejects (sealed or full), a fresh fragment group holding the bytes alone is
opened immediately - the remaining matching signatures are never consulted. -/
theorem c3_first_candidate_resolves (k sid : Nat) (seq : List Nat)
    (st : IngestState) (p : MMin × MMin) (e : List FragSig) (t : FragSig)
    (hl : mapLookup st.frag_map (canonPair p.1.hash p.2.hash).1 = some e)
    (hf : findCandidate st.frag_groups.length (canonPair p.1.hash p.2.hash).2 e
      = some t) :
    (∀ sub, ((st.frag_groups.getD (decodeGid t.frag_id) FragGroup.new).addFrag
        (seqSlice seq (p.1.pos + 1 - k) (p.2.pos + 1))).2 = some sub →
      (stepPair k sid seq st p).frag_groups =
        st.frag_groups.set (decodeGid t.frag_id)
          ((st.frag_groups.getD (decodeGid t.frag_id) FragGroup.new).addFrag
            (seqSlice seq (p.1.pos + 1 - k) (p.2.pos + 1))).1 ∧
      (stepPair k sid seq st p).seq_frags =
        st.seq_frags ++ [mkFragId (decodeGid t.frag_id) sub 1]) ∧
    (((st.frag_groups.getD (decodeGid t.frag_id) FragGroup.new).addFrag
        (seqSlice seq (p.1.pos + 1 - k) (p.2.pos + 1))).2 = none →
      (stepPair k sid seq st p).frag_groups =
        st.frag_groups.set (decodeGid t.frag_id)
          ((st.frag_groups.getD (decodeGid t.frag_id) FragGroup.new).addFrag
            (seqSlice seq (p.1.pos + 1 - k) (p.2.pos + 1))).1 ++
          [⟨[seqSlice seq (p.1.pos + 1 - k) (p.2.pos + 1)], false⟩] ∧
      (stepPair k sid seq st p).seq_frags =
        st.seq_frags ++ [mkFragId st.frag_group_id 0 1]) := by
  constructor
  · intro sub hsub
    unfold stepPair
    dsimp only
    rw [hl]
    dsimp only
    rw [hf]
    dsimp only
    rw [hsub]
    exact ⟨rfl, rfl⟩
  · intro hnone
    unfold stepPair
    dsimp only
    rw [hl]
    dsimp only
    rw [hf]
    dsimp only
    rw [hnone]
    exact ⟨rfl, rfl⟩

/-- Witness for C3: the amended behaviour at the concrete sealed-first-group
state: a fresh third group is opened and the emitted fragment id uses the
fresh group counter. -/
theorem c3_witness :
    (stepPair 2 9 [1, 2, 3, 4, 5, 6] c3State c3Pair).seq_frags =
      [mkFragId 2 0 1] ∧
    (stepPair 2 9 [1, 2, 3, 4, 5, 6] c3State c3Pair).frag_groups =
      [⟨[[1]], true⟩, ⟨[], false⟩, ⟨[[2, 3, 4, 5]], false⟩] := by
  have h := (c3_first_candidate_resolves 2 9 [1, 2, 3, 4, 5, 6] c3State c3Pair
    [⟨1, 0, 1, 2, 0⟩, ⟨65, 0, 1, 2, 0⟩] ⟨1, 0, 1, 2, 0⟩ (by decide) (by decide)).2
    (by decide)
  refine ⟨by rw [h.2]; decide, by rw [h.1]; decide⟩

/-- The seq_frags emitted by the pair loop, without side conditions: each step
appends exactly one internal-kind fragment id. -/
theorem foldl_stepPair_frags (k sid : Nat) (seq : List Nat)
    (pairs : List (MMin × MMin)) (st : IngestState) :
    ∃ emitted,
      (pairs.foldl (stepPair k sid seq) st).seq_frags = st.seq_frags ++ emitted ∧
      emitted.length = pairs.length ∧ ∀ f ∈ emitted, decodeKind f = 1 := by
  induction pairs generalizing st with
  | nil => exact ⟨[], by simp, rfl, by simp⟩
  | cons p ps ih =>
      have hstep : ∃ fid, (stepPair k sid seq st p).seq_frags =
          st.seq_frags ++ [fid] ∧ decodeKind fid = 1 := by
        unfold stepPair
        dsimp only
        split
        · exact ⟨_, rfl, decodeKind_mkFragId _ _ _ (by norm_num)⟩
        · split
          · exact ⟨_, rfl, decodeKind_mkFragId _ _ _ (by norm_num)⟩
          · split
            · exact ⟨_, rfl, decodeKind_mkFragId _ _ _ (by norm_num)⟩
            · exact ⟨_, rfl, decodeKind_mkFragId _ _ _ (by norm_num)⟩
      obtain ⟨fid, hfid, hkind⟩ := hstep
      obtain ⟨emitted, hfrags, hlen, hkinds⟩ := ih (stepPair k sid seq st p)
      refine ⟨fid :: emitted, ?_, by simpa using hlen, ?_⟩
      · rw [List.foldl_cons, hfrags, hfid, List.append_assoc]
        rfl
      · intro f hf
        rcases List.mem_cons.mp hf with h | h
        · subst h; exact hkind
        · exact hkinds f h

/-- Claim C7, amended: for a non-empty minimizer list the fragment list of the
produced `CompactSeq` is a kind-`0b00` fragment, then `(pairs)` internal
kind-`0b01` fragments, then a kind-`0b10` suffix fragment; for an empty
minimizer list it is a single kind-`0b00` fragment (kind `0b10` does not
appear). -/
theorem c7_frag_kinds (db : CompactSeqDBM) (sid : Nat) (seq : List Nat)
    (shmmrs : List MMin) :
    (shmmrs = [] →
      (seqToCompressed db sid seq shmmrs).1.seq_frags.length = 1 ∧
      decodeKind ((seqToCompressed db sid seq shmmrs).1.seq_frags.headD 9) = 0 ∧
      decodeKind ((seqToCompressed db sid seq shmmrs).1.seq_frags.getLastD 9) = 0) ∧
    (shmmrs ≠ [] →
      (seqToCompressed db sid seq shmmrs).1.seq_frags.length =
        (pairShmmrs shmmrs).length + 2 ∧
      decodeKind ((seqToCompressed db sid seq shmmrs).1.seq_frags.headD 9) = 0 ∧
      decodeKind ((seqToCompressed db sid seq shmmrs).1.seq_frags.getLastD 9) = 2 ∧
      ∀ f ∈ (seqToCompressed db sid seq shmmrs).1.seq_frags.tail.dropLast,
        decodeKind f = 1) := by
  constructor
  · intro h
    subst h
    unfold seqToCompressed
    exact ⟨rfl, decodeKind_mkFragId _ _ _ (by norm_num),
      decodeKind_mkFragId _ _ _ (by norm_num)⟩
  · intro h
    cases shmmrs with
    | nil => exact absurd rfl h
    | cons m0 rest =>
        unfold seqToCompressed
        dsimp only
        set st0 : IngestState :=
          { frag_groups := db.frag_groups ++ [⟨[seq.take (m0.pos + 1)], false⟩]
            frag_map := db.frag_map
            frag_group_id := db.frag_groups.length + 1
            seq_frags := [mkFragId db.frag_groups.length 0 0]
            seq_len := m0.pos + 1 } with hst0
        obtain ⟨emitted, hfrags, hlen, hkinds⟩ :=
          foldl_stepPair_frags db.shmmr_k sid seq (pairShmmrs (m0 :: rest)) st0
        have hst0f : st0.seq_frags = [mkFragId db.frag_groups.length 0 0] := by
          rw [hst0]
        rw [hfrags, hst0f]
        refine ⟨by simp [hlen], ?_, ?_, ?_⟩
        · simp only [List.cons_append, List.headD_cons]
          exact decodeKind_mkFragId _ _ _ (by norm_num)
        · rw [List.getLastD_concat]
          exact decodeKind_mkFragId _ _ _ (by norm_num)
        · intro f hf
          have h1 : (([mkFragId db.frag_groups.length 0 0] ++ emitted) ++
              [mkFragId ((pairShmmrs (m0 :: rest)).foldl
                (stepPair db.shmmr_k sid seq) st0).frag_group_id 0 2]).tail.dropLast
              = emitted := by
            simp
          rw [h1] at hf
          exact hkinds f hf

/-- Witness for C7: both branches of the amended claim at concrete inputs. -/
theorem c7_witness :
    (seqToCompressed ⟨2, [], [], []⟩ 0 [9, 8, 7, 6, 5] []).1.seq_frags.length = 1 ∧
    decodeKind ((seqToCompressed ⟨2, [], [], []⟩ 0 [9, 8, 7, 6, 5]
      []).1.seq_frags.getLastD 9) = 0 ∧
    (seqToCompressed ⟨2, [], [], []⟩ 0 [9, 8, 7, 6, 5, 4]
      [⟨10, 1⟩, ⟨11, 3⟩]).1.seq_frags.length = 3 ∧
    decodeKind ((seqToCompressed ⟨2, [], [], []⟩ 0 [9, 8, 7, 6, 5, 4]
      [⟨10, 1⟩, ⟨11, 3⟩]).1.seq_frags.headD 9) = 0 ∧
    decodeKind ((seqToCompressed ⟨2, [], [], []⟩ 0 [9, 8, 7, 6, 5, 4]
      [⟨10, 1⟩, ⟨11, 3⟩]).1.seq_frags.getLastD 9) = 2 := by
  refine ⟨(c7_frag_kinds ⟨2, [], [], []⟩ 0 [9, 8, 7, 6, 5] []).1 rfl |>.1,
    (c7_frag_kinds ⟨2, [], [], []⟩ 0 [9, 8, 7, 6, 5] []).1 rfl |>.2.2, ?_, ?_, ?_⟩
  · have h := ((c7_frag_kinds ⟨2, [], [], []⟩ 0 [9, 8, 7, 6, 5, 4]
      [⟨10, 1⟩, ⟨11, 3⟩]).2 (by decide)).1
    rw [h]
    decide
  · exact ((c7_frag_kinds ⟨2, [], [], []⟩ 0 [9, 8, 7, 6, 5, 4]
      [⟨10, 1⟩, ⟨11, 3⟩]).2 (by decide)).2.1
  · exact ((c7_frag_kinds ⟨2, [], [], []⟩ 0 [9, 8, 7, 6, 5, 4]
      [⟨10, 1⟩, ⟨11, 3⟩]).2 (by decide)).2.2.1

theorem filterAlnStep_eq (st : FilterState) (s : AlignSegmentM) :
    filterAlnStep st s = st ∨
    (s.2.1 ≤ s.2.2.1 ∧ st.lte < s.2.1 ∧
      filterAlnStep st s =
        ⟨st.lte, s.2.2.1, st.lqe, s.1.2.1,
          st.rtn ++ [((st.lte, s.2.2.1), (st.lqe, s.1.2.1))]⟩) := by
  unfold filterAlnStep
  dsimp only
  by_cases h1 : s.2.2.1 < s.2.1
  · rw [if_pos h1]
    left
    rfl
  · rw [if_neg h1]
    by_cases h2 : s.1.2.2 ≠ s.2.2.2
    · rw [if_pos h2]
      left
      rfl
    · rw [if_neg h2]
      by_cases h3 : st.lte < s.2.1
      · rw [if_pos h3]
        right
        refine ⟨by omega, h3, ?_⟩
        rw [if_neg (by omega)]
      · rw [if_neg h3]
        left
        rfl

theorem filterAlnRevStep_eq (st : FilterState) (s : AlignSegmentM)
    (hts : s.2.1 < s.2.2.1) :
    filterAlnRevStep st s = st ∨
    (st.lte ≤ s.2.1 ∧
      filterAlnRevStep st s =
        ⟨st.lte, s.2.2.1, s.1.1, st.lqs,
          st.rtn ++ [((st.lte, s.2.2.1), (s.1.1, st.lqs))]⟩) := by
  unfold filterAlnRevStep
  dsimp only
  by_cases h1 : s.2.2.1 < s.2.1
  · rw [if_pos h1]
    left
    rfl
  · rw [if_neg h1]
    by_cases h2 : s.1.2.2 = s.2.2.2
    · rw [if_pos h2]
      left
      rfl
    · rw [if_neg h2]
      by_cases h3 : st.lte ≤ s.2.1
      · rw [if_pos h3]
        right
        refine ⟨h3, ?_⟩
        rw [if_neg (by omega)]
      · rw [if_neg h3]
        left
        rfl

theorem chain'_snoc2 {α : Type} (R : α → α → Prop) (xs : List α) (x y : α)
    (h : List.Chain' R (xs ++ [x])) (hxy : R x y) :
    List.Chain' R (xs ++ [x] ++ [y]) := by
  refine List.Chain'.append h (by simp) ?_
  intro a ha b hb
  rw [List.getLast?_concat] at ha
  simp at ha hb
  subst ha
  subst hb
  exact hxy

theorem filterAln_fold_mono (l : List AlignSegmentM) :
    ∀ (st : FilterState) (ws : List ((Nat × Nat) × (Nat × Nat))),
    st.rtn = ws ++ [((st.lts, st.lte), (st.lqs, st.lqe))] →
    List.Chain' (· < ·) (st.rtn.map fun w => w.1.1) →
    List.Chain' (· < ·) (st.rtn.map fun w => w.2.1) →
    st.lts < st.lte → st.lqs < st.lqe →
    (∀ s ∈ l, st.lqe < s.1.2.1) →
    List.Pairwise (fun a b : AlignSegmentM => a.1.2.1 < b.1.2.1) l →
    List.Chain' (· < ·) (((l.foldl filterAlnStep st).rtn).map fun w => w.1.1) ∧
    List.Chain' (· < ·) (((l.foldl filterAlnStep st).rtn).map fun w => w.2.1) := by
  induction l with
  | nil =>
      intro st ws hrtn hct hcq hlt hlq hqe hpw
      exact ⟨hct, hcq⟩
  | cons s r ih =>
      intro st ws hrtn hct hcq hlt hlq hqe hpw
      rw [List.foldl_cons]
      rcases filterAlnStep_eq st s with heq | ⟨hts, hlte, heq⟩
      · rw [heq]
        exact ih st ws hrtn hct hcq hlt hlq
          (fun x hx => hqe x (List.mem_cons_of_mem _ hx)) hpw.of_cons
      · rw [heq]
        refine ih _ (ws ++ [((st.lts, st.lte), (st.lqs, st.lqe))]) ?_ ?_ ?_ ?_ ?_ ?_ ?_
        · dsimp only
          rw [hrtn, List.append_assoc]
        · dsimp only
          rw [hrtn] at hct ⊢
          simp only [List.map_append, List.map_cons, List.map_nil] at hct ⊢
          exact chain'_snoc2 _ _ _ _ hct hlt
        · dsimp only
          rw [hrtn] at hcq ⊢
          simp only [List.map_append, List.map_cons, List.map_nil] at hcq ⊢
          exact chain'_snoc2 _ _ _ _ hcq hlq
        · dsimp only
          omega
        · dsimp only
          exact hqe s (List.mem_cons_self _ _)
        · intro x hx
          dsimp only
          exact (List.pairwise_cons.mp hpw).1 x hx
        · exact hpw.of_cons

theorem filterAlnRev_fold_mono (l : List AlignSegmentM) :
    ∀ (st : FilterState) (ws : List ((Nat × Nat) × (Nat × Nat))),
    st.rtn = ws ++ [((st.lts, st.lte), (st.lqs, st.lqe))] →
    List.Chain' (· < ·) (st.rtn.map fun w => w.1.1) →
    List.Chain' (· > ·) (st.rtn.map fun w => w.2.1) →
    st.lts < st.lte →
    (∀ s ∈ l, s.2.1 < s.2.2.1) →
    (∀ s ∈ l, s.1.1 < st.lqs) →
    List.Pairwise (fun a b : AlignSegmentM => b.1.1 < a.1.1) l →
    List.Chain' (· < ·) (((l.foldl filterAlnRevStep st).rtn).map fun w => w.1.1) ∧
    List.Chain' (· > ·) (((l.foldl filterAlnRevStep st).rtn).map fun w => w.2.1) := by
  induction l with
  | nil =>
      intro st ws hrtn hct hcq hlt hts hqs hpw
      exact ⟨hct, hcq⟩
  | cons s r ih =>
      intro st ws hrtn hct hcq hlt hts hqs hpw
      rw [List.foldl_cons]
      rcases filterAlnRevStep_eq st s (hts s (List.mem_cons_self _ _)) with
        heq | ⟨hlte, heq⟩
      · rw [heq]
        exact ih st ws hrtn hct hcq hlt
          (fun x hx => hts x (List.mem_cons_of_mem _ hx))
          (fun x hx => hqs x (List.mem_cons_of_mem _ hx)) hpw.of_cons
      · rw [heq]
        refine ih _ (ws ++ [((st.lts, st.lte), (st.lqs, st.lqe))]) ?_ ?_ ?_ ?_ ?_ ?_ ?_
        · dsimp only
          rw [hrtn, List.append_assoc]
        · dsimp only
          rw [hrtn] at hct ⊢
          simp only [List.map_append, List.map_cons, List.map_nil] at hct ⊢
          exact chain'_snoc2 _ _ _ _ hct hlt
        · dsimp only
          rw [hrtn] at hcq ⊢
          simp only [List.map_append, List.map_cons, List.map_nil] at hcq ⊢
          exact chain'_snoc2 _ _ _ _ hcq (hqs s (List.mem_cons_self _ _))
        · show st.lte < s.2.2.1
          have := hts s (List.mem_cons_self _ _)
          omega
        · exact fun x hx => hts x (List.mem_cons_of_mem _ hx)
        · show ∀ x ∈ r, x.1.1 < s.1.1
          exact fun x hx => (List.pairwise_cons.mp hpw).1 x hx
        · exact hpw.of_cons

/-- Claim C6, amended: the monotonicity of the filtered match windows holds
under chain-shaped inputs.  For orientation 0, if the first hit has
non-inverted target and query spans and the query end coordinates strictly
increase along the hit list, `filter_aln` returns windows whose target begin
and query begin positions are strictly increasing.  For orientation 1, if
every hit has a non-inverted target span and the query start coordinates
strictly increase along the (original) list, `filter_aln_rev` returns windows
with strictly increasing target begins and strictly decreasing query begins.
(On merely sorted hit lists the claimed monotonicity fails, see the
counterexample.) -/
theorem c6_filter_monotonic :
    (∀ (s0 : AlignSegmentM) (rest : List AlignSegmentM),
      s0.2.1 < s0.2.2.1 → s0.1.1 < s0.1.2.1 →
      List.Pairwise (fun a b : AlignSegmentM => a.1.2.1 < b.1.2.1) (s0 :: rest) →
      List.Chain' (· < ·) ((filterAln (s0 :: rest)).map fun w => w.1.1) ∧
      List.Chain' (· < ·) ((filterAln (s0 :: rest)).map fun w => w.2.1)) ∧
    (∀ (s0 : AlignSegmentM) (rest : List AlignSegmentM),
      (∀ s ∈ s0 :: rest, s.2.1 < s.2.2.1) →
      List.Pairwise (fun a b : AlignSegmentM => a.1.1 < b.1.1) (s0 :: rest) →
      List.Chain' (· < ·) ((filterAlnRev (s0 :: rest)).map fun w => w.1.1) ∧
      List.Chain' (· > ·) ((filterAlnRev (s0 :: rest)).map fun w => w.2.1)) := by
  constructor
  · intro s0 rest hts0 hqs0 hpw
    show List.Chain' (· < ·) ((((s0 :: rest).foldl filterAlnStep
        ⟨s0.2.1, s0.2.2.1, s0.1.1, s0.1.2.1,
         [((s0.2.1, s0.2.2.1), (s0.1.1, s0.1.2.1))]⟩).rtn).map fun w => w.1.1) ∧
      List.Chain' (· < ·) ((((s0 :: rest).foldl filterAlnStep
        ⟨s0.2.1, s0.2.2.1, s0.1.1, s0.1.2.1,
         [((s0.2.1, s0.2.2.1), (s0.1.1, s0.1.2.1))]⟩).rtn).map fun w => w.2.1)
    rw [List.foldl_cons]
    have hself : filterAlnStep
        ⟨s0.2.1, s0.2.2.1, s0.1.1, s0.1.2.1,
         [((s0.2.1, s0.2.2.1), (s0.1.1, s0.1.2.1))]⟩ s0 =
        ⟨s0.2.1, s0.2.2.1, s0.1.1, s0.1.2.1,
         [((s0.2.1, s0.2.2.1), (s0.1.1, s0.1.2.1))]⟩ := by
      rcases filterAlnStep_eq
        ⟨s0.2.1, s0.2.2.1, s0.1.1, s0.1.2.1,
         [((s0.2.1, s0.2.2.1), (s0.1.1, s0.1.2.1))]⟩ s0 with h | ⟨_, hlt, _⟩
      · exact h
      · exfalso
        have hlt' : s0.2.2.1 < s0.2.1 := hlt
        omega
    rw [hself]
    exact filterAln_fold_mono rest _ [] rfl (by simp) (by simp) hts0 hqs0
      (List.pairwise_cons.mp hpw).1 hpw.of_cons
  · intro s0 rest htsall hpw
    obtain ⟨r0, rr, hrev⟩ : ∃ r0 rr, (s0 :: rest).reverse = r0 :: rr := by
      cases h : (s0 :: rest).reverse with
      | nil => exact absurd h (by simp)
      | cons a b => exact ⟨a, b, rfl⟩
    have hr0mem : r0 ∈ s0 :: rest := by
      rw [← List.mem_reverse, hrev]
      exact List.mem_cons_self _ _
    have hr0 : r0.2.1 < r0.2.2.1 := htsall r0 hr0mem
    have hpwrev : List.Pairwise (fun a b : AlignSegmentM => b.1.1 < a.1.1)
        (r0 :: rr) := by
      rw [← hrev, List.pairwise_reverse]
      exact hpw
    unfold filterAlnRev
    rw [hrev]
    dsimp only
    rw [List.foldl_cons]
    have hself : filterAlnRevStep
        ⟨r0.2.1, r0.2.2.1, r0.1.1, r0.1.2.1,
         [((r0.2.1, r0.2.2.1), (r0.1.1, r0.1.2.1))]⟩ r0 =
        ⟨r0.2.1, r0.2.2.1, r0.1.1, r0.1.2.1,
         [((r0.2.1, r0.2.2.1), (r0.1.1, r0.1.2.1))]⟩ := by
      rcases filterAlnRevStep_eq
        ⟨r0.2.1, r0.2.2.1, r0.1.1, r0.1.2.1,
         [((r0.2.1, r0.2.2.1), (r0.1.1, r0.1.2.1))]⟩ r0 hr0 with h | ⟨hle', _⟩
      · exact h
      · exfalso
        have hle2 : r0.2.2.1 ≤ r0.2.1 := hle'
        omega
    rw [hself]
    refine filterAlnRev_fold_mono rr _ [] rfl (by simp) (by simp) hr0 ?_ ?_
      hpwrev.of_cons
    · intro x hx
      refine htsall x ?_
      rw [← List.mem_reverse, hrev]
      exact List.mem_cons_of_mem _ hx
    · exact (List.pairwise_cons.mp hpwrev).1

/-- Witness for C6: both filter modes at concrete two-hit chains. -/
theorem c6_witness :
    (List.Chain' (· < ·) ((filterAln [((0, 10, 0), (0, 10, 0)),
        ((20, 30, 0), (20, 30, 0))]).map fun w => w.1.1) ∧
      List.Chain' (· < ·) ((filterAln [((0, 10, 0), (0, 10, 0)),
        ((20, 30, 0), (20, 30, 0))]).map fun w => w.2.1)) ∧
    (List.Chain' (· < ·) ((filterAlnRev [((0, 10, 1), (0, 10, 0)),
        ((20, 30, 1), (20, 30, 0))]).map fun w => w.1.1) ∧
      List.Chain' (· > ·) ((filterAlnRev [((0, 10, 1), (0, 10, 0)),
        ((20, 30, 1), (20, 30, 0))]).map fun w => w.2.1)) := by
  refine ⟨c6_filter_monotonic.1 ((0, 10, 0), (0, 10, 0)) [((20, 30, 0), (20, 30, 0))]
      (by norm_num) (by norm_num) (by norm_num [List.pairwise_cons]),
    c6_filter_monotonic.2 ((0, 10, 1), (0, 10, 0)) [((20, 30, 1), (20, 30, 0))]
      (by decide) (by norm_num [List.pairwise_cons])⟩

theorem fragsFor_cons (s : SmpRec) (rest : List SmpRec) (k : String × Nat) :
    fragsFor (s :: rest) k =
      if s.key = k then (s.bgn, s.fend) :: fragsFor rest k else fragsFor rest k := by
  unfold fragsFor
  by_cases h : s.key = k
  · rw [if_pos h]
    simp [List.filter_cons, h]
  · rw [if_neg h]
    simp [List.filter_cons, h]

theorem keyLen_cons (s : SmpRec) (rest : List SmpRec) (k : String × Nat) :
    keyLen (s :: rest) k =
      (if s.key = k then s.fend - s.bgn else 0) + keyLen rest k := by
  unfold keyLen
  rw [fragsFor_cons]
  by_cases h : s.key = k
  · rw [if_pos h, if_pos h]
    simp
  · rw [if_neg h, if_neg h]
    simp

theorem sum_map_add {α M : Type} [AddCommMonoid M] (l : List α) (f g : α → M) :
    (l.map fun x => f x + g x).sum = (l.map f).sum + (l.map g).sum := by
  induction l with
  | nil => simp
  | cons hd tl ih =>
      simp only [List.map_cons, List.sum_cons, ih]
      abel

theorem sum_indicator_zero {K : Type} [DecidableEq K] (keys : List K) (x : K)
    (c : Nat) (hx : x ∉ keys) :
    (keys.map fun k => if x = k then c else 0).sum = 0 := by
  induction keys with
  | nil => rfl
  | cons k0 rest ih =>
      simp only [List.map_cons, List.sum_cons]
      rw [if_neg (by intro h; exact hx (by simp [h])), ih (fun h => hx (by simp [h]))]

theorem sum_indicator {K : Type} [DecidableEq K] (keys : List K) (x : K) (c : Nat)
    (hnd : keys.Nodup) (hx : x ∈ keys) :
    (keys.map fun k => if x = k then c else 0).sum = c := by
  induction keys with
  | nil => simp at hx
  | cons k0 rest ih =>
      simp only [List.map_cons, List.sum_cons]
      rcases List.mem_cons.mp hx with h | h
      · rw [if_pos h, sum_indicator_zero rest x c (by rw [h]; exact
          (List.nodup_cons.mp hnd).1)]
        omega
      · rw [if_neg ?_, ih (List.nodup_cons.mp hnd).2 h]
        · simp
        · intro he
          exact (List.nodup_cons.mp hnd).1 (he ▸ h)

theorem sum_keyLen (smps : List SmpRec) (keys : List (String × Nat))
    (hnd : keys.Nodup) (hcov : ∀ s ∈ smps, s.key ∈ keys) :
    (keys.map fun k => keyLen smps k).sum = totalLen smps := by
  induction smps with
  | nil =>
      have : ∀ k, keyLen ([] : List SmpRec) k = 0 := fun k => rfl
      simp [this, totalLen]
  | cons s rest ih =>
      have hmap : (keys.map fun k => keyLen (s :: rest) k) =
          keys.map fun k => (if s.key = k then s.fend - s.bgn else 0) + keyLen rest k :=
        List.map_congr_left fun k _ => keyLen_cons s rest k
      rw [hmap, sum_map_add, sum_indicator keys s.key (s.fend - s.bgn) hnd
        (hcov s (List.mem_cons_self _ _)),
        ih (fun x hx => hcov x (List.mem_cons_of_mem _ hx))]
      unfold totalLen
      simp

theorem keyLen_eq_zero (smps : List SmpRec) (k : String × Nat)
    (h : fragsFor smps k = []) : keyLen smps k = 0 := by
  unfold keyLen
  rw [h]
  rfl

theorem matchScoreTerm_le (smps0 smps1 : List SmpRec) (k : String × Nat) :
    matchScoreTerm smps0 smps1 k ≤ (keyLen smps0 k : ℤ) + keyLen smps1 k ∧
    -((keyLen smps0 k : ℤ) + keyLen smps1 k) ≤ matchScoreTerm smps0 smps1 k := by
  unfold matchScoreTerm
  by_cases h1 : fragsFor smps0 k ≠ [] ∧ fragsFor smps1 k ≠ []
  · rw [if_pos h1]
    by_cases h2 : (fragsFor smps0 k).length = (fragsFor smps1 k).length
    · rw [if_pos h2]
      omega
    · rw [if_neg h2]
      omega
  · rw [if_neg h1]
    by_cases h2 : fragsFor smps0 k ≠ []
    · rw [if_pos h2]
      omega
    · rw [if_neg h2]
      by_cases h3 : fragsFor smps1 k ≠ []
      · rw [if_pos h3]
        omega
      · rw [if_neg h3]
        omega

theorem matchScore_le (smps0 smps1 : List SmpRec) (keys : List (String × Nat)) :
    (keys.map (matchScoreTerm smps0 smps1)).sum ≤
      (keys.map fun k => (keyLen smps0 k : ℤ) + keyLen smps1 k).sum ∧
    -((keys.map fun k => (keyLen smps0 k : ℤ) + keyLen smps1 k).sum) ≤
      (keys.map (matchScoreTerm smps0 smps1)).sum := by
  induction keys with
  | nil => simp
  | cons k0 rest ih =>
      simp only [List.map_cons, List.sum_cons]
      have h0 := matchScoreTerm_le smps0 smps1 k0
      constructor
      · exact add_le_add h0.1 ih.1
      · have := ih.2
        omega

theorem allKeys_nodup (smps0 smps1 : List SmpRec) :
    (allKeys smps0 smps1).Nodup := List.nodup_dedup _

theorem allKeys_cov0 (smps0 smps1 : List SmpRec) (s : SmpRec) (hs : s ∈ smps0) :
    s.key ∈ allKeys smps0 smps1 := by
  unfold allKeys
  rw [List.mem_dedup]
  exact List.mem_map_of_mem _ (List.mem_append_left _ hs)

theorem allKeys_cov1 (smps0 smps1 : List SmpRec) (s : SmpRec) (hs : s ∈ smps1) :
    s.key ∈ allKeys smps0 smps1 := by
  unfold allKeys
  rw [List.mem_dedup]
  exact List.mem_map_of_mem _ (List.mem_append_right _ hs)

theorem sum_map_natCast {α : Type} (l : List α) (f : α → Nat) :
    (l.map fun x => ((f x : Nat) : ℤ)).sum = ((l.map f).sum : ℤ) := by
  induction l with
  | nil => simp
  | cons hd tl ih => simp [ih]

theorem matchScore_bounds (smps0 smps1 : List SmpRec) :
    matchScore smps0 smps1 ≤ (totalLen smps0 : ℤ) + totalLen smps1 ∧
    -((totalLen smps0 : ℤ) + totalLen smps1) ≤ matchScore smps0 smps1 := by
  have hs := matchScore_le smps0 smps1 (allKeys smps0 smps1)
  have h1 : ((allKeys smps0 smps1).map fun k =>
      (keyLen smps0 k : ℤ) + keyLen smps1 k).sum =
      (totalLen smps0 : ℤ) + totalLen smps1 := by
    rw [sum_map_add, sum_map_natCast, sum_map_natCast,
      sum_keyLen smps0 _ (allKeys_nodup _ _) (allKeys_cov0 smps0 smps1),
      sum_keyLen smps1 _ (allKeys_nodup _ _) (allKeys_cov1 smps0 smps1)]
  rw [h1] at hs
  exact hs

theorem fragsFor_ne_nil (smps : List SmpRec) (k : String × Nat)
    (h : ∃ s ∈ smps, s.key = k) : fragsFor smps k ≠ [] := by
  obtain ⟨s, hs, hk⟩ := h
  unfold fragsFor
  intro hcon
  have hmem : s ∈ smps.filter fun s => s.key = k :=
    List.mem_filter.mpr ⟨hs, by simp [hk]⟩
  rw [List.map_eq_nil.mp hcon] at hmem
  exact List.not_mem_nil s hmem

theorem matchScore_self (smps : List SmpRec) :
    matchScore smps smps = 2 * (totalLen smps : ℤ) := by
  unfold matchScore
  have hcong : (allKeys smps smps).map (matchScoreTerm smps smps) =
      (allKeys smps smps).map fun k => 2 * (keyLen smps k : ℤ) := by
    refine List.map_congr_left fun k hk => ?_
    have hne : fragsFor smps k ≠ [] := by
      refine fragsFor_ne_nil smps k ?_
      unfold allKeys at hk
      rw [List.mem_dedup, List.mem_map] at hk
      obtain ⟨s, hs, hkey⟩ := hk
      rcases List.mem_append.mp hs with h | h
      · exact ⟨s, h, hkey⟩
      · exact ⟨s, h, hkey⟩
    unfold matchScoreTerm
    rw [if_pos ⟨hne, hne⟩, if_pos rfl]
    omega
  rw [hcong]
  have h2 : ((allKeys smps smps).map fun k => 2 * (keyLen smps k : ℤ)).sum =
      2 * ((allKeys smps smps).map fun k => (keyLen smps k : ℤ)).sum := by
    induction allKeys smps smps with
    | nil => simp
    | cons hd tl ih =>
        simp only [List.map_cons, List.sum_cons, ih]
        ring
  rw [h2, sum_map_natCast,
    sum_keyLen smps _ (allKeys_nodup _ _) (allKeys_cov0 smps smps)]

/-- Claim C9, amended: `align_smps` computes `match_score` as claimed, but
returns through the distance formula only when some shared key occurs exactly
once on each side (so that an offset was collected); otherwise it returns
`dist = 1.0` without evaluating the formula.  The returned `dist` always lies
in `[0, 1]` (given a positive total span, in exact arithmetic), and a run list
compared against itself yields `dist = 0` provided some key occurs exactly
once (not for every non-empty run list). -/
theorem c9_align_smps_dist :
    (∀ smps0 smps1 : List SmpRec, hasUniqueSharedKey smps0 smps1 = false →
      alignSmpsDist smps0 smps1 = 1) ∧
    (∀ smps0 smps1 : List SmpRec, 0 < totalLen smps0 + totalLen smps1 →
      0 ≤ alignSmpsDist smps0 smps1 ∧ alignSmpsDist smps0 smps1 ≤ 1) ∧
    (∀ smps : List SmpRec, hasUniqueSharedKey smps smps = true →
      0 < totalLen smps → alignSmpsDist smps smps = 0) := by
  refine ⟨fun smps0 smps1 h => by unfold alignSmpsDist; rw [if_pos h], ?_, ?_⟩
  · intro smps0 smps1 hpos
    unfold alignSmpsDist
    by_cases h : hasUniqueSharedKey smps0 smps1 = false
    · rw [if_pos h]
      norm_num
    · rw [if_neg h]
      have hb := matchScore_bounds smps0 smps1
      have hS : (0 : ℚ) < ((totalLen smps0 + totalLen smps1 : Nat) : ℚ) := by
        exact_mod_cast hpos
      have hb1 : (matchScore smps0 smps1 : ℚ) ≤
          (totalLen smps0 : ℚ) + (totalLen smps1 : ℚ) := by
        exact_mod_cast hb.1
      have hb2 : -((totalLen smps0 : ℚ) + (totalLen smps1 : ℚ)) ≤
          (matchScore smps0 smps1 : ℚ) := by
        exact_mod_cast hb.2
      have hx1 : (matchScore smps0 smps1 : ℚ) /
          ((totalLen smps0 + totalLen smps1 : Nat) : ℚ) ≤ 1 := by
        rw [div_le_one hS]
        push_cast
        linarith [hb1]
      have hx2 : (-1 : ℚ) ≤ (matchScore smps0 smps1 : ℚ) /
          ((totalLen smps0 + totalLen smps1 : Nat) : ℚ) := by
        rw [le_div_iff hS]
        push_cast
        linarith [hb2]
      constructor
      · linarith
      · linarith
  · intro smps h hpos
    unfold alignSmpsDist
    rw [if_neg (by simp [h])]
    rw [matchScore_self]
    have hS : (0 : ℚ) < ((totalLen smps + totalLen smps : Nat) : ℚ) := by
      push_cast
      have : (0 : ℚ) < (totalLen smps : ℚ) := by exact_mod_cast hpos
      linarith
    have hdiv : ((2 * (totalLen smps : ℤ) : ℤ) : ℚ) /
        ((totalLen smps + totalLen smps : Nat) : ℚ) = 1 := by
      rw [div_eq_one_iff_eq (by linarith)]
      push_cast
      ring
    rw [hdiv]
    norm_num

/-- Witness for C9: the amended facts at concrete run lists: a self-comparison
with a unique key gives distance zero, a comparison of two different lists
stays within `[0, 1]`, and a self-comparison without unique keys returns 1. -/
theorem c9_witness :
    alignSmpsDist [⟨"a", 0, 5, 0⟩] [⟨"a", 0, 5, 0⟩] = 0 ∧
    (0 ≤ alignSmpsDist [⟨"a", 0, 5, 0⟩] [⟨"b", 2, 4, 1⟩] ∧
      alignSmpsDist [⟨"a", 0, 5, 0⟩] [⟨"b", 2, 4, 1⟩] ≤ 1) ∧
    alignSmpsDist c9Smps c9Smps = 1 := by
  refine ⟨c9_align_smps_dist.2.2 [⟨"a", 0, 5, 0⟩] (by decide) (by decide),
    c9_align_smps_dist.2.1 [⟨"a", 0, 5, 0⟩] [⟨"b", 2, 4, 1⟩] (by decide),
    c9_align_smps_dist.1 c9Smps c9Smps (by decide)⟩

theorem leBytes_length (w n : Nat) : (leBytes w n).length = w := by
  induction w generalizing n with
  | zero => rfl
  | succ w ih => simp [leBytes, ih]

theorem fromLE_leBytes (w : Nat) : ∀ n : Nat, n < 256 ^ w →
    fromLE (leBytes w n) = n := by
  induction w with
  | zero =>
      intro n hn
      simp at hn
      simp [hn, leBytes, fromLE]
  | succ w ih =>
      intro n hn
      have hdiv : n / 256 < 256 ^ w := by
        rw [pow_succ] at hn
        omega
      simp only [leBytes, fromLE, ih (n / 256) hdiv]
      omega

theorem readBytesAt_append (pre mid post : List Nat) (n : Nat)
    (hn : mid.length = n) :
    readBytesAt (pre ++ (mid ++ post)) pre.length n = some mid := by
  unfold readBytesAt
  rw [if_pos (by simp; omega)]
  rw [List.drop_left, List.take_left' hn]

theorem readU32At_append (pre post : List Nat) (x : Nat) (hx : x < 2 ^ 32) :
    readU32At (pre ++ (leBytes 4 x ++ post)) pre.length = some x := by
  unfold readU32At
  rw [readBytesAt_append pre (leBytes 4 x) post 4 (leBytes_length 4 x)]
  have hx' : x < 256 ^ 4 := by norm_num at hx ⊢; omega
  simp [fromLE_leBytes 4 x hx']

theorem readU64At_append (pre post : List Nat) (x : Nat) (hx : x < 2 ^ 64) :
    readU64At (pre ++ (leBytes 8 x ++ post)) pre.length = some x := by
  unfold readU64At
  rw [readBytesAt_append pre (leBytes 8 x) post 8 (leBytes_length 8 x)]
  have hx' : x < 256 ^ 8 := by norm_num at hx ⊢; omega
  simp [fromLE_leBytes 8 x hx']

theorem readU8At_append (pre post : List Nat) (b : Nat) :
    readU8At (pre ++ ([b] ++ post)) pre.length = some b := by
  unfold readU8At
  rw [readBytesAt_append pre [b] post 1 rfl]
  simp [fromLE]

theorem encodeSig_length (s : FragSig) : (encodeSig s).length = 17 := by
  simp [encodeSig, leBytes_length]

theorem readSigsAt_spec (buf : List Nat) (sigs : List FragSig) :
    ∀ (pre post : List Nat),
    buf = pre ++ ((sigs.map encodeSig).flatten ++ post) →
    (∀ s ∈ sigs, s.frag_id < 2 ^ 32 ∧ s.seq_id < 2 ^ 32 ∧ s.bgn < 2 ^ 32 ∧
      s.fend < 2 ^ 32 ∧ s.ori < 2 ^ 8) →
    readSigsAt buf pre.length sigs.length =
      some (sigs, pre.length + 17 * sigs.length) := by
  induction sigs with
  | nil =>
      intro pre post hbuf hb
      simp [readSigsAt]
  | cons s rest ih =>
      intro pre post hbuf hb
      obtain ⟨hf, hsi, hbg, hfe, ho⟩ := hb s (List.mem_cons_self _ _)
      have l2 : pre.length + 4 = (pre ++ leBytes 4 s.frag_id).length := by
        simp [leBytes_length]
      have l3 : pre.length + 8 =
          ((pre ++ leBytes 4 s.frag_id) ++ leBytes 4 s.seq_id).length := by
        simp [leBytes_length]
      have l4 : pre.length + 12 =
          (((pre ++ leBytes 4 s.frag_id) ++ leBytes 4 s.seq_id) ++
            leBytes 4 s.bgn).length := by
        simp [leBytes_length]
      have l5 : pre.length + 16 =
          ((((pre ++ leBytes 4 s.frag_id) ++ leBytes 4 s.seq_id) ++
            leBytes 4 s.bgn) ++ leBytes 4 s.fend).length := by
        simp [leBytes_length]
      have l6 : pre.length + 17 = (pre ++ encodeSig s).length := by
        simp [encodeSig_length]
      have r1 : readU32At buf pre.length = some s.frag_id := by
        rw [show buf = pre ++ (leBytes 4 s.frag_id ++ (leBytes 4 s.seq_id ++
          (leBytes 4 s.bgn ++ (leBytes 4 s.fend ++ ([s.ori % 256] ++
          ((rest.map encodeSig).flatten ++ post)))))) by
            rw [hbuf]; simp [encodeSig, List.append_assoc]]
        exact readU32At_append _ _ _ hf
      have r2 : readU32At buf (pre.length + 4) = some s.seq_id := by
        rw [show buf = (pre ++ leBytes 4 s.frag_id) ++ (leBytes 4 s.seq_id ++
          (leBytes 4 s.bgn ++ (leBytes 4 s.fend ++ ([s.ori % 256] ++
          ((rest.map encodeSig).flatten ++ post))))) by
            rw [hbuf]; simp [encodeSig, List.append_assoc], l2]
        exact readU32At_append _ _ _ hsi
      have r3 : readU32At buf (pre.length + 8) = some s.bgn := by
        rw [show buf = ((pre ++ leBytes 4 s.frag_id) ++ leBytes 4 s.seq_id) ++
          (leBytes 4 s.bgn ++ (leBytes 4 s.fend ++ ([s.ori % 256] ++
          ((rest.map encodeSig).flatten ++ post)))) by
            rw [hbuf]; simp [encodeSig, List.append_assoc], l3]
        exact readU32At_append _ _ _ hbg
      have r4 : readU32At buf (pre.length + 12) = some s.fend := by
        rw [show buf = (((pre ++ leBytes 4 s.frag_id) ++ leBytes 4 s.seq_id) ++
          leBytes 4 s.bgn) ++ (leBytes 4 s.fend ++ ([s.ori % 256] ++
          ((rest.map encodeSig).flatten ++ post))) by
            rw [hbuf]; simp [encodeSig, List.append_assoc], l4]
        exact readU32At_append _ _ _ hfe
      have r5 : readU8At buf (pre.length + 16) = some s.ori := by
        have hmod : s.ori % 256 = s.ori := Nat.mod_eq_of_lt (by norm_num at ho ⊢; omega)
        rw [show buf = ((((pre ++ leBytes 4 s.frag_id) ++ leBytes 4 s.seq_id) ++
          leBytes 4 s.bgn) ++ leBytes 4 s.fend) ++ ([s.ori % 256] ++
          ((rest.map encodeSig).flatten ++ post)) by
            rw [hbuf]; simp [encodeSig, List.append_assoc], l5]
        rw [readU8At_append, hmod]
      have r6 : readSigsAt buf (pre.length + 17) rest.length =
          some (rest, pre.length + 17 + 17 * rest.length) := by
        rw [l6]
        refine ih (pre ++ encodeSig s) post ?_
          (fun x hx => hb x (List.mem_cons_of_mem _ hx))
        rw [hbuf]
        simp [encodeSig, List.append_assoc]
      show readSigsAt buf pre.length (rest.length + 1) = _
      rw [readSigsAt, r1, r2, r3, r4, r5, r6]
      simp only [Option.bind_eq_bind, Option.some_bind, List.length_cons]
      refine congrArg some (Prod.ext ?_ ?_)
      · rfl
      · simp
        omega

theorem sigs_flatten_length (sigs : List FragSig) :
    ((sigs.map encodeSig).flatten).length = 17 * sigs.length := by
  induction sigs with
  | nil => simp
  | cons s rest ih =>
      simp [encodeSig_length, ih]
      ring

theorem encodeEntry_length (kv : ShmmrPairM × List FragSig) :
    (encodeEntry kv).length = 24 + 17 * kv.2.length := by
  simp only [encodeEntry, List.length_append, sigs_flatten_length, leBytes_length]

theorem readEntriesAt_spec (buf : List Nat) (entries : List (ShmmrPairM × List FragSig)) :
    ∀ (pre post : List Nat),
    buf = pre ++ ((entries.map encodeEntry).flatten ++ post) →
    (∀ kv ∈ entries, kv.1.1 < 2 ^ 64 ∧ kv.1.2 < 2 ^ 64 ∧ kv.2.length < 2 ^ 64 ∧
      ∀ s ∈ kv.2, s.frag_id < 2 ^ 32 ∧ s.seq_id < 2 ^ 32 ∧ s.bgn < 2 ^ 32 ∧
        s.fend < 2 ^ 32 ∧ s.ori < 2 ^ 8) →
    readEntriesAt buf pre.length entries.length =
      some (entries, pre.length + ((entries.map encodeEntry).flatten).length) := by
  induction entries with
  | nil =>
      intro pre post hbuf hb
      simp [readEntriesAt]
  | cons kv rest ih =>
      intro pre post hbuf hb
      obtain ⟨h1, h2, h3, h4⟩ := hb kv (List.mem_cons_self _ _)
      have l2 : pre.length + 8 = (pre ++ leBytes 8 kv.1.1).length := by
        simp [leBytes_length]
      have l3 : pre.length + 16 =
          ((pre ++ leBytes 8 kv.1.1) ++ leBytes 8 kv.1.2).length := by
        simp [leBytes_length]
      have l4 : pre.length + 24 =
          (((pre ++ leBytes 8 kv.1.1) ++ leBytes 8 kv.1.2) ++
            leBytes 8 kv.2.length).length := by
        simp [leBytes_length]
      have r1 : readU64At buf pre.length = some kv.1.1 := by
        rw [show buf = pre ++ (leBytes 8 kv.1.1 ++ (leBytes 8 kv.1.2 ++
          (leBytes 8 kv.2.length ++ ((kv.2.map encodeSig).flatten ++
          ((rest.map encodeEntry).flatten ++ post))))) by
            rw [hbuf]; simp [encodeEntry, List.append_assoc]]
        exact readU64At_append _ _ _ h1
      have r2 : readU64At buf (pre.length + 8) = some kv.1.2 := by
        rw [show buf = (pre ++ leBytes 8 kv.1.1) ++ (leBytes 8 kv.1.2 ++
          (leBytes 8 kv.2.length ++ ((kv.2.map encodeSig).flatten ++
          ((rest.map encodeEntry).flatten ++ post)))) by
            rw [hbuf]; simp [encodeEntry, List.append_assoc], l2]
        exact readU64At_append _ _ _ h2
      have r3 : readU64At buf (pre.length + 16) = some kv.2.length := by
        rw [show buf = ((pre ++ leBytes 8 kv.1.1) ++ leBytes 8 kv.1.2) ++
          (leBytes 8 kv.2.length ++ ((kv.2.map encodeSig).flatten ++
          ((rest.map encodeEntry).flatten ++ post))) by
            rw [hbuf]; simp [encodeEntry, List.append_assoc], l3]
        exact readU64At_append _ _ _ h3
      have r4 : readSigsAt buf (pre.length + 24) kv.2.length =
          some (kv.2, pre.length + 24 + 17 * kv.2.length) := by
        rw [l4]
        refine readSigsAt_spec buf kv.2 _
          ((rest.map encodeEntry).flatten ++ post) ?_ h4
        rw [hbuf]
        simp [encodeEntry, List.append_assoc]
      have r5 : readEntriesAt buf (pre.length + 24 + 17 * kv.2.length)
          rest.length = some (rest, pre.length + 24 + 17 * kv.2.length +
            ((rest.map encodeEntry).flatten).length) := by
        have l5 : pre.length + 24 + 17 * kv.2.length =
            (pre ++ encodeEntry kv).length := by
          simp [encodeEntry_length]
          omega
        rw [l5]
        refine ih (pre ++ encodeEntry kv) post ?_
          (fun x hx => hb x (List.mem_cons_of_mem _ hx))
        rw [hbuf]
        simp [List.append_assoc]
      show readEntriesAt buf pre.length (rest.length + 1) = _
      rw [readEntriesAt, r1, r2, r3]
      simp only [Option.bind_eq_bind, Option.some_bind]
      rw [r4]
      simp only [Option.some_bind]
      rw [r5]
      simp only [Option.some_bind]
      refine congrArg some (Prod.ext ?_ ?_)
      · rfl
      · simp only [List.map_cons, List.flatten_cons, List.length_append,
          encodeEntry_length]
        omega

theorem scanDecode_spec (buf : List Nat) (entries : List (ShmmrPairM × List FragSig)) :
    ∀ (pre post : List Nat),
    buf = pre ++ ((entries.map encodeEntry).flatten ++ post) →
    (∀ kv ∈ entries, kv.1.1 < 2 ^ 64 ∧ kv.1.2 < 2 ^ 64 ∧ kv.2.length < 2 ^ 64 ∧
      ∀ s ∈ kv.2, s.frag_id < 2 ^ 32 ∧ s.seq_id < 2 ^ 32 ∧ s.bgn < 2 ^ 32 ∧
        s.fend < 2 ^ 32 ∧ s.ori < 2 ^ 8) →
    ∃ recs, scanRecsAt buf pre.length entries.length =
      some (recs, pre.length + ((entries.map encodeEntry).flatten).length) ∧
      recs.mapM (fun rc => do
        let s ← readSigsAt buf rc.2.2.1 rc.2.2.2
        some ((rc.1, rc.2.1), s.1)) = some entries := by
  induction entries with
  | nil =>
      intro pre post hbuf hb
      exact ⟨[], by simp [scanRecsAt], rfl⟩
  | cons kv rest ih =>
      intro pre post hbuf hb
      obtain ⟨h1, h2, h3, h4⟩ := hb kv (List.mem_cons_self _ _)
      have l2 : pre.length + 8 = (pre ++ leBytes 8 kv.1.1).length := by
        simp [leBytes_length]
      have l3 : pre.length + 16 =
          ((pre ++ leBytes 8 kv.1.1) ++ leBytes 8 kv.1.2).length := by
        simp [leBytes_length]
      have l4 : pre.length + 24 =
          (((pre ++ leBytes 8 kv.1.1) ++ leBytes 8 kv.1.2) ++
            leBytes 8 kv.2.length).length := by
        simp [leBytes_length]
      have r1 : readU64At buf pre.length = some kv.1.1 := by
        rw [show buf = pre ++ (leBytes 8 kv.1.1 ++ (leBytes 8 kv.1.2 ++
          (leBytes 8 kv.2.length ++ ((kv.2.map encodeSig).flatten ++
          ((rest.map encodeEntry).flatten ++ post))))) by
            rw [hbuf]; simp [encodeEntry, List.append_assoc]]
        exact readU64At_append _ _ _ h1
      have r2 : readU64At buf (pre.length + 8) = some kv.1.2 := by
        rw [show buf = (pre ++ leBytes 8 kv.1.1) ++ (leBytes 8 kv.1.2 ++
          (leBytes 8 kv.2.length ++ ((kv.2.map encodeSig).flatten ++
          ((rest.map encodeEntry).flatten ++ post)))) by
            rw [hbuf]; simp [encodeEntry, List.append_assoc], l2]
        exact readU64At_append _ _ _ h2
      have r3 : readU64At buf (pre.length + 16) = some kv.2.length := by
        rw [show buf = ((pre ++ leBytes 8 kv.1.1) ++ leBytes 8 kv.1.2) ++
          (leBytes 8 kv.2.length ++ ((kv.2.map encodeSig).flatten ++
          ((rest.map encodeEntry).flatten ++ post))) by
            rw [hbuf]; simp [encodeEntry, List.append_assoc], l3]
        exact readU64At_append _ _ _ h3
      have r4 : readSigsAt buf (pre.length + 24) kv.2.length =
          some (kv.2, pre.length + 24 + 17 * kv.2.length) := by
        rw [l4]
        refine readSigsAt_spec buf kv.2 _
          ((rest.map encodeEntry).flatten ++ post) ?_ h4
        rw [hbuf]
        simp [encodeEntry, List.append_assoc]
      obtain ⟨recs, hscan, hdec⟩ := ih (pre ++ encodeEntry kv) post
        (by rw [hbuf]; simp [List.append_assoc])
        (fun x hx => hb x (List.mem_cons_of_mem _ hx))
      have l5 : pre.length + 24 + kv.2.length * 17 =
          (pre ++ encodeEntry kv).length := by
        simp [encodeEntry_length]
        omega
      refine ⟨(kv.1.1, kv.1.2, pre.length + 24, kv.2.length) :: recs, ?_, ?_⟩
      · show scanRecsAt buf pre.length (rest.length + 1) = _
        rw [scanRecsAt, r1, r2, r3]
        simp only [Option.bind_eq_bind, Option.some_bind]
        rw [l5, hscan]
        simp only [Option.some_bind]
        refine congrArg some (Prod.ext rfl ?_)
        simp [encodeEntry_length]
        omega
      · rw [List.mapM_cons, hdec]
        simp only [r4, Option.bind_eq_bind, Option.some_bind]
        rfl

theorem mapInsert_notmem (acc : ShmmrMapM) (k : ShmmrPairM) (v : List FragSig)
    (h : ∀ kv ∈ acc, kv.1 ≠ k) : mapInsert acc k v = acc ++ [(k, v)] := by
  induction acc with
  | nil => rfl
  | cons hd tl ih =>
      obtain ⟨k0, v0⟩ := hd
      simp only [mapInsert]
      rw [if_neg (h (k0, v0) (List.mem_cons_self _ _)),
        ih (fun kv hkv => h kv (List.mem_cons_of_mem _ hkv))]
      rfl

theorem foldl_mapInsert (entries : List (ShmmrPairM × List FragSig)) :
    ∀ acc : ShmmrMapM,
    (∀ kv ∈ entries, ∀ kv2 ∈ acc, kv2.1 ≠ kv.1) →
    entries.Pairwise (fun a b => a.1 ≠ b.1) →
    entries.foldl (fun m kv => mapInsert m kv.1 kv.2) acc = acc ++ entries := by
  induction entries with
  | nil => intro acc _ _; simp
  | cons kv rest ih =>
      intro acc hacc hpw
      rw [List.foldl_cons,
        mapInsert_notmem acc kv.1 kv.2 (hacc kv (List.mem_cons_self _ _)),
        ih (acc ++ [(kv.1, kv.2)]) ?_ hpw.of_cons]
      · simp
      · intro x hx y hy
        rcases List.mem_append.mp hy with h | h
        · exact hacc x (List.mem_cons_of_mem _ hx) y h
        · simp at h
          rw [h]
          exact (List.pairwise_cons.mp hpw).1 x hx

set_option maxHeartbeats 1000000 in
/-- Claim C8: round trip of the `.mdb` container.  Writing a bounded spec and
map with `write_shmr_map_file` and decoding the produced bytes with
`read_mdb_file` returns exactly the same spec and the same key-to-signature
map (same signatures in the same order under each key); and on every
well-formed `.mdb` byte stream (one produced by the writer),
`read_mdb_file_parallel` returns the same result. -/
theorem c8_mdb_round_trip (spec : ShmmrSpecM) (m : ShmmrMapM)
    (hspec : SpecBounded spec) (hm : MdbBounded m)
    (hkeys : m.Pairwise (fun a b => a.1 ≠ b.1)) :
    readMdbFile (writeShmrMapBuf spec m) = some (spec, m) ∧
    readMdbFileParallel (writeShmrMapBuf spec m) = some (spec, m) := by
  obtain ⟨hw, hk, hr, hms⟩ := hspec
  have hflag : (if spec.sketch then 1 else 0) < 2 ^ 32 := by split <;> norm_num
  have hg : (writeShmrMapBuf spec m).take 3 = [109, 100, 98] := rfl
  have r1 : readU32At (writeShmrMapBuf spec m) 3 = some spec.w := by
    rw [show writeShmrMapBuf spec m = ([109, 100, 98] : List Nat) ++
      (leBytes 4 spec.w ++ (leBytes 4 spec.k ++ (leBytes 4 spec.r ++
      (leBytes 4 spec.min_span ++ (leBytes 4 (if spec.sketch then 1 else 0) ++
      (leBytes 8 m.length ++ (m.map encodeEntry).flatten)))))) by
        simp [writeShmrMapBuf, List.append_assoc]]
    exact readU32At_append _ _ _ hw
  have l7 : (7 : Nat) = (([109, 100, 98] : List Nat) ++ leBytes 4 spec.w).length := by
    simp [leBytes_length]
  have r2 : readU32At (writeShmrMapBuf spec m) 7 = some spec.k := by
    rw [show writeShmrMapBuf spec m = (([109, 100, 98] : List Nat) ++
      leBytes 4 spec.w) ++ (leBytes 4 spec.k ++ (leBytes 4 spec.r ++
      (leBytes 4 spec.min_span ++ (leBytes 4 (if spec.sketch then 1 else 0) ++
      (leBytes 8 m.length ++ (m.map encodeEntry).flatten))))) by
        simp [writeShmrMapBuf, List.append_assoc], l7]
    exact readU32At_append _ _ _ hk
  have l11 : (11 : Nat) = ((([109, 100, 98] : List Nat) ++ leBytes 4 spec.w) ++
      leBytes 4 spec.k).length := by
    simp [leBytes_length]
  have r3 : readU32At (writeShmrMapBuf spec m) 11 = some spec.r := by
    rw [show writeShmrMapBuf spec m = ((([109, 100, 98] : List Nat) ++
      leBytes 4 spec.w) ++ leBytes 4 spec.k) ++ (leBytes 4 spec.r ++
      (leBytes 4 spec.min_span ++ (leBytes 4 (if spec.sketch then 1 else 0) ++
      (leBytes 8 m.length ++ (m.map encodeEntry).flatten)))) by
        simp [writeShmrMapBuf, List.append_assoc], l11]
    exact readU32At_append _ _ _ hr
  have l15 : (15 : Nat) = (((([109, 100, 98] : List Nat) ++ leBytes 4 spec.w) ++
      leBytes 4 spec.k) ++ leBytes 4 spec.r).length := by
    simp [leBytes_length]
  have r4 : readU32At (writeShmrMapBuf spec m) 15 = some spec.min_span := by
    rw [show writeShmrMapBuf spec m = (((([109, 100, 98] : List Nat) ++
      leBytes 4 spec.w) ++ leBytes 4 spec.k) ++ leBytes 4 spec.r) ++
      (leBytes 4 spec.min_span ++ (leBytes 4 (if spec.sketch then 1 else 0) ++
      (leBytes 8 m.length ++ (m.map encodeEntry).flatten))) by
        simp [writeShmrMapBuf, List.append_assoc], l15]
    exact readU32At_append _ _ _ hms
  have l19 : (19 : Nat) = ((((([109, 100, 98] : List Nat) ++ leBytes 4 spec.w) ++
      leBytes 4 spec.k) ++ leBytes 4 spec.r) ++ leBytes 4 spec.min_span).length := by
    simp [leBytes_length]
  have r5 : readU32At (writeShmrMapBuf spec m) 19 =
      some (if spec.sketch then 1 else 0) := by
    rw [show writeShmrMapBuf spec m = ((((([109, 100, 98] : List Nat) ++
      leBytes 4 spec.w) ++ leBytes 4 spec.k) ++ leBytes 4 spec.r) ++
      leBytes 4 spec.min_span) ++ (leBytes 4 (if spec.sketch then 1 else 0) ++
      (leBytes 8 m.length ++ (m.map encodeEntry).flatten)) by
        simp [writeShmrMapBuf, List.append_assoc], l19]
    exact readU32At_append _ _ _ hflag
  have l23 : (23 : Nat) = (((((([109, 100, 98] : List Nat) ++ leBytes 4 spec.w) ++
      leBytes 4 spec.k) ++ leBytes 4 spec.r) ++ leBytes 4 spec.min_span) ++
      leBytes 4 (if spec.sketch then 1 else 0)).length := by
    simp [leBytes_length]
  have r6 : readU64At (writeShmrMapBuf spec m) 23 = some m.length := by
    rw [show writeShmrMapBuf spec m = (((((([109, 100, 98] : List Nat) ++
      leBytes 4 spec.w) ++ leBytes 4 spec.k) ++ leBytes 4 spec.r) ++
      leBytes 4 spec.min_span) ++ leBytes 4 (if spec.sketch then 1 else 0)) ++
      (leBytes 8 m.length ++ (m.map encodeEntry).flatten) by
        simp [writeShmrMapBuf, List.append_assoc], l23]
    exact readU64At_append _ _ _ hm.1
  have l31 : (31 : Nat) = ((((((([109, 100, 98] : List Nat) ++ leBytes 4 spec.w) ++
      leBytes 4 spec.k) ++ leBytes 4 spec.r) ++ leBytes 4 spec.min_span) ++
      leBytes 4 (if spec.sketch then 1 else 0)) ++ leBytes 8 m.length).length := by
    simp [leBytes_length]
  have hshape31 : writeShmrMapBuf spec m = ((((((([109, 100, 98] : List Nat) ++
      leBytes 4 spec.w) ++ leBytes 4 spec.k) ++ leBytes 4 spec.r) ++
      leBytes 4 spec.min_span) ++ leBytes 4 (if spec.sketch then 1 else 0)) ++
      leBytes 8 m.length) ++ ((m.map encodeEntry).flatten ++ []) := by
    simp [writeShmrMapBuf, List.append_assoc]
  have r7 : readEntriesAt (writeShmrMapBuf spec m) 31 m.length =
      some (m, 31 + ((m.map encodeEntry).flatten).length) := by
    rw [l31]
    have := readEntriesAt_spec (writeShmrMapBuf spec m) m _ [] hshape31 hm.2
    rw [this]
  have hspecEq : (⟨spec.w, spec.k, spec.r, spec.min_span,
      decide ((if spec.sketch then 1 else 0) % 2 = 1)⟩ : ShmmrSpecM) = spec := by
    obtain ⟨w1, k1, r1, ms1, sk1⟩ := spec
    cases sk1 <;> rfl
  have hfold : m.foldl (fun acc kv => mapInsert acc kv.1 kv.2) [] = m := by
    rw [foldl_mapInsert m [] (fun kv _ kv2 hkv2 => absurd hkv2 (List.not_mem_nil kv2))
      hkeys]
    rfl
  constructor
  · unfold readMdbFile
    rw [hg]
    simp only [guard, reduceIte]
    rw [r1]
    simp only [Option.bind_eq_bind, Option.some_bind]
    rw [r2]
    simp only [Option.some_bind]
    rw [r3]
    simp only [Option.some_bind]
    rw [r4]
    simp only [Option.some_bind]
    rw [r5]
    simp only [Option.some_bind]
    rw [r6]
    simp only [Option.some_bind]
    rw [r7]
    simp only [Option.some_bind]
    rw [hfold, hspecEq]
    rfl
  · obtain ⟨recs, hscan, hdec⟩ := scanDecode_spec (writeShmrMapBuf spec m) m
      _ [] hshape31 hm.2
    rw [← l31] at hscan
    unfold readMdbFileParallel
    rw [hg]
    simp only [guard, reduceIte]
    rw [r1]
    simp only [Option.bind_eq_bind, Option.some_bind]
    rw [r2]
    simp only [Option.some_bind]
    rw [r3]
    simp only [Option.some_bind]
    rw [r4]
    simp only [Option.some_bind]
    rw [r5]
    simp only [Option.some_bind]
    rw [r6]
    simp only [Option.some_bind]
    rw [hscan]
    simp only [Option.some_bind]
    simp only [Option.bind_eq_bind] at hdec ⊢
    rw [hdec]
    simp only [Option.some_bind]
    rw [hfold, hspecEq]
    rfl

/-- Witness for C8: a concrete one-key map with two signatures round-trips
through both readers. -/
theorem c8_witness :
    readMdbFile (writeShmrMapBuf ⟨80, 56, 4, 64, true⟩
      [((5, 7), [⟨1, 0, 1, 2, 0⟩, ⟨65, 1, 3, 4, 1⟩])]) =
      some (⟨80, 56, 4, 64, true⟩, [((5, 7), [⟨1, 0, 1, 2, 0⟩, ⟨65, 1, 3, 4, 1⟩])]) ∧
    readMdbFileParallel (writeShmrMapBuf ⟨80, 56, 4, 64, true⟩
      [((5, 7), [⟨1, 0, 1, 2, 0⟩, ⟨65, 1, 3, 4, 1⟩])]) =
      some (⟨80, 56, 4, 64, true⟩, [((5, 7), [⟨1, 0, 1, 2, 0⟩, ⟨65, 1, 3, 4, 1⟩])]) :=
  c8_mdb_round_trip ⟨80, 56, 4, 64, true⟩
    [((5, 7), [⟨1, 0, 1, 2, 0⟩, ⟨65, 1, 3, 4, 1⟩])]
    (by unfold SpecBounded; decide) (by unfold MdbBounded; decide) (by simp)
